import Mathlib

/-!
Verification development for `sbom-tree.py`: a shallow embedding of the
program's graph-reconstruction layer (CycloneDX/SPDX normalizers), its
forest builder and its traversal/rendering functions, together with
theorems settling the specification's claims.

Modelling conventions:
* JSON values are the inductive `Json`.  Arrays and objects are encoded
  with cons-style constructors (`arrNil/arrCons`, `objNil/objCons`) so that
  `DecidableEq` is derivable and kernel-computable; `mkArr`/`mkObj` build
  them from lists.  Python `None` is `Json.null`; a missing dictionary key
  reads as `Json.null`, exactly like Python's `dict.get` default.
* Python text is modelled as `List Char` (named `Str` below) because the
  program compares, lowercases and concatenates strings and those
  operations must evaluate on concrete inputs.  Lower/upper-casing is
  modelled on ASCII letters, which is where the program's inputs live.
* Python dicts preserve insertion order; they are modelled as ordered
  association lists with unique keys (`dictSet`, `dictSetdefault`).
  Python sets have an unspecified enumeration order; they are modelled as
  duplicate-free lists in insertion order, one admissible enumeration
  (`setAdd`, and the child lists inside `edges`).
* The recursive traversals are defined with a fuel parameter and return
  `none` when the fuel runs out; termination of the Python recursion is
  then the theorem that a concrete fuel bound never returns `none`.
* Inputs on which CPython itself would raise before producing a graph
  (unhashable ids used as dict keys, `.get`/string methods invoked on
  values of the wrong runtime type) are given a harmless total semantics
  here; all claims and counterexamples live on inputs where CPython does
  not raise.
-/

inductive Json where
  | null
  | bool (b : Bool)
  | num (n : Int)
  | str (s : String)
  | arrNil
  | arrCons (hd tl : Json)
  | objNil
  | objCons (key : String) (val tl : Json)
  deriving DecidableEq, Repr

/-- Build an encoded JSON array from a list of values. -/
def mkArr (l : List Json) : Json := l.foldr Json.arrCons Json.arrNil

/-- Build an encoded JSON object from an ordered field list. -/
def mkObj (l : List (String × Json)) : Json :=
  l.foldr (fun p t => Json.objCons p.1 p.2 t) Json.objNil

/-- The elements of an encoded JSON array; non-arrays have no elements
(the program only iterates values it has either checked with
`isinstance(_, list)` or defaulted with `or []`). -/
def Json.items : Json → List Json
  | .arrCons h t => h :: t.items
  | _ => []

/-- The keys of an encoded JSON object. -/
def Json.keys : Json → List String
  | .objCons k _ t => k :: t.keys
  | _ => []

def Json.isObj : Json → Bool
  | .objNil => true
  | .objCons _ _ _ => true
  | _ => false

/-- First value stored under a key, if any (object keys are unique in
well-formed documents). -/
def Json.getRaw : Json → String → Option Json
  | .objCons k v t, key => if k = key then some v else t.getRaw key
  | _, _ => none

/-- Python `d.get(k)`: the stored value, or `None` when the key is absent. -/
def Json.get (j : Json) (k : String) : Json := (j.getRaw k).getD Json.null

/-- Python `k in d` on a dict. -/
def Json.hasKey (j : Json) (k : String) : Bool := (j.getRaw k).isSome

/-- Python truthiness of a JSON value. -/
def Json.truthy : Json → Bool
  | .null => false
  | .bool b => b
  | .num n => n != 0
  | .str s => s != ""
  | .arrNil => false
  | .arrCons _ _ => true
  | .objNil => false
  | .objCons _ _ _ => true

/-- Python `a or b`: `a` when truthy, else `b`. -/
def Json.pyOr (a b : Json) : Json := if a.truthy then a else b

/-- Python text, modelled as a list of characters. -/
abbrev Str := List Char

/-- Python `str()` / f-string rendering of a value.  Scalars match CPython;
the array/object branches are only reachable on inputs where CPython
raises before ever printing such a label. -/
def Json.pyStr : Json → Str
  | .null => "None".data
  | .bool true => "True".data
  | .bool false => "False".data
  | .num n => (toString n).data
  | .str s => s.data
  | _ => "<unprintable>".data

/-- ASCII lower-casing of one character (Python `str.lower` on the
program's ASCII inputs). -/
def charLower (c : Char) : Char :=
  if 'A' ≤ c ∧ c ≤ 'Z' then Char.ofNat (c.toNat + 32) else c

/-- ASCII upper-casing of one character. -/
def charUpper (c : Char) : Char :=
  if 'a' ≤ c ∧ c ≤ 'z' then Char.ofNat (c.toNat - 32) else c

def strLower (s : Str) : Str := s.map charLower

def strUpper (s : Str) : Str := s.map charUpper

/-- Python `.replace("-", "_")` (the pattern is a single character, so a
character map is the same substitution). -/
def replaceDash (s : Str) : Str := s.map (fun c => if c = '-' then '_' else c)

/-- Python `.replace(chr(34), chr(92) ++ chr(34))` used by the DOT emitter. -/
def escQuote (s : Str) : Str :=
  s.foldr (fun c acc => (if c = '"' then ['\\', '"'] else [c]) ++ acc) []

/-- Python `a < b` on strings: lexicographic by code point. -/
def strLtb : Str → Str → Bool
  | [], [] => false
  | [], _ :: _ => true
  | _ :: _, [] => false
  | a :: as, b :: bs => if a < b then true else if b < a then false else strLtb as bs

/-- Insert `x` before the first element whose key is not smaller; `x` is the
originally-earlier element, so equal keys keep `x` first (stability). -/
def insertByKey (key : Json → Str) (x : Json) : List Json → List Json
  | [] => [x]
  | y :: ys => if strLtb (key y) (key x) then y :: insertByKey key x ys else x :: y :: ys

/-- Python `sorted(l, key=...)`: a stable sort by the key.  CPython's sort is
stable, so any stable sort by the same key produces the same list. -/
def sortByKey (key : Json → Str) : List Json → List Json
  | [] => []
  | x :: xs => insertByKey key x (sortByKey key xs)

/-- Python `sorted(ids)` over node ids (the program only reaches this with
string ids; CPython would raise on mixed types). -/
def pySortedIds (l : List Json) : List Json := sortByKey Json.pyStr l

/-- Ordered association-list lookup (Python dict read). -/
def dictGet {α : Type} : List (Json × α) → Json → Option α
  | [], _ => none
  | (k, v) :: rest, key => if k = key then some v else dictGet rest key

def dictHasKey {α : Type} (m : List (Json × α)) (k : Json) : Bool :=
  (dictGet m k).isSome

/-- Python `d[k] = v`: overwrite in place, else append (insertion order). -/
def dictSet {α : Type} : List (Json × α) → Json → α → List (Json × α)
  | [], k, v => [(k, v)]
  | (k', v') :: rest, k, v =>
    if k' = k then (k', v) :: rest else (k', v') :: dictSet rest k v

/-- Python `d.setdefault(k, v)`. -/
def dictSetdefault {α : Type} (m : List (Json × α)) (k : Json) (v : α) :
    List (Json × α) :=
  if dictHasKey m k then m else m ++ [(k, v)]

/-- Python `s.add(x)` on a set modelled in insertion order. -/
def setAdd (s : List Json) (x : Json) : List Json :=
  if x ∈ s then s else s ++ [x]

/-- Python `edges[src].add(dst)` on `defaultdict(set)`: create the entry on
first use, then set-insert the child. -/
def edgeAdd : List (Json × List Json) → Json → Json → List (Json × List Json)
  | [], src, dst => [(src, [dst])]
  | (k, cs) :: rest, src, dst =>
    if k = src then (k, if dst ∈ cs then cs else cs ++ [dst]) :: rest
    else (k, cs) :: edgeAdd rest src dst

/-- All directed edges of an edge map, as (source, target) pairs. -/
def edgePairs (e : List (Json × List Json)) : List (Json × Json) :=
  (e.map (fun p => p.2.map (fun c => (p.1, c)))).flatten

/-- All edge targets (with multiplicity across entries). -/
def edgeTargets (e : List (Json × List Json)) : List Json :=
  (e.map (fun p => p.2)).flatten

/-- All edge sources (the keys of the edge map). -/
def edgeSources (e : List (Json × List Json)) : List Json :=
  e.map (fun p => p.1)

/-- The canonical Graph: node id → label, node id → child set, candidate
root ids.  (`SBOM.__init__`.) -/
structure SBOM where
  nodes : List (Json × Json) := []
  edges : List (Json × List Json) := []
  roots : List Json := []
  deriving DecidableEq, Repr

/-- CycloneDX component id: first truthy of `bom-ref`, `bomRef`, `purl`,
`name` (Python `or`-chain, so the last value when all are falsy). -/
def cxCompId (c : Json) : Json :=
  Json.pyOr (Json.pyOr (Json.pyOr (c.get "bom-ref") (c.get "bomRef")) (c.get "purl")) (c.get "name")

/-- `SBOM._cx_label`. -/
def cxLabel (c : Json) : Json :=
  let name := Json.pyOr (Json.pyOr (Json.pyOr (c.get "name") (c.get "group")) (c.get "type"))
    (Json.str "component")
  let version := c.get "version"
  let group := c.get "group"
  let label :=
    if group.truthy ∧ group ≠ name then
      Json.str (String.mk (Json.pyStr group ++ "/".data ++ Json.pyStr name))
    else name
  if version.truthy then
    Json.str (String.mk (Json.pyStr label ++ "@".data ++ Json.pyStr version))
  else label

/-- First pass of `SBOM._from_cyclonedx`: one node per component with a
derivable (truthy) id; components without one are skipped. -/
def cxCompsPass (obj : Json) : SBOM :=
  (obj.get "components").items.foldl
    (fun s c =>
      let cid := cxCompId c
      if cid.truthy then { s with nodes := dictSet s.nodes cid (cxLabel c) } else s)
    {}

/-- `metadata.component` (missing or falsy `metadata` reads as absent). -/
def cxMetaComp (obj : Json) : Json := (obj.get "metadata").get "component"

/-- The declared root id: derived from `metadata.component` when that is
truthy, otherwise the `root_id = None` of the source. -/
def cxRootId (obj : Json) : Json :=
  if (cxMetaComp obj).truthy then cxCompId (cxMetaComp obj) else Json.null

/-- Metadata pass: record the declared root as a node (keeping an existing
label) and as a candidate root. -/
def cxMetaPass (obj : Json) (s : SBOM) : SBOM :=
  let mc := cxMetaComp obj
  if mc.truthy then
    let rid := cxCompId mc
    if rid.truthy then
      { s with nodes := dictSetdefault s.nodes rid (cxLabel mc),
               roots := setAdd s.roots rid }
    else s
  else s

/-- One entry of the top-level `dependencies` array. -/
def cxDepStep (s : SBOM) (dep : Json) : SBOM :=
  let ref := dep.get "ref"
  if ref.truthy then
    let s1 := { s with nodes := dictSetdefault s.nodes ref ref }
    (dep.get "dependsOn").items.foldl
      (fun s2 child =>
        if child.truthy then
          { s2 with nodes := dictSetdefault s2.nodes child child,
                    edges := edgeAdd s2.edges ref child }
        else s2)
      s1
  else s

def cxDepsPass (obj : Json) (s : SBOM) : SBOM :=
  (obj.get "dependencies").items.foldl cxDepStep s

/-- One component of the inline-dependency fallback: every listed child
yields a node for the component's id (even `None`), a node for the child,
and an edge. -/
def cxFallbackStep (s : SBOM) (c : Json) : SBOM :=
  let src := cxCompId c
  (c.get "dependencies").items.foldl
    (fun s2 child =>
      { s2 with nodes := dictSetdefault (dictSetdefault s2.nodes src src) child child,
                edges := edgeAdd s2.edges src child })
    s

/-- Fallback pass, taken only when the `dependencies` section produced no
edges and components exist. -/
def cxFallbackPass (obj : Json) (s : SBOM) : SBOM :=
  if s.edges = [] ∧ (obj.get "components").items ≠ [] then
    (obj.get "components").items.foldl cxFallbackStep s
  else s

/-- Root inference plus declared-root override. -/
def cxRootsPass (obj : Json) (s : SBOM) : SBOM :=
  let allChildren := edgeTargets s.edges
  let candidates := (s.nodes.map (fun p => p.1)).filter (fun k => k ∉ allChildren)
  let s1 := if candidates ≠ [] then { s with roots := candidates.foldl setAdd s.roots } else s
  let rid := cxRootId obj
  if rid.truthy then { s1 with roots := [rid] } else s1

/-- Synthesized edges from a declared root that has no outgoing edges:
every edge source not targeted by any edge becomes its child. -/
def cxSynthPass (obj : Json) (s : SBOM) : SBOM :=
  let rid := cxRootId obj
  if rid.truthy ∧ dictHasKey s.nodes rid ∧ ¬ dictHasKey s.edges rid then
    let inDeps := edgeTargets s.edges
    let topLevel := pySortedIds ((edgeSources s.edges).filter (fun r => r ∉ inDeps))
    if topLevel ≠ [] then { s with edges := dictSet s.edges rid topLevel } else s
  else s

/-- `SBOM._from_cyclonedx` up to (including) the `dependencies` section. -/
def cxAfterDeps (obj : Json) : SBOM :=
  cxDepsPass obj (cxMetaPass obj (cxCompsPass obj))

/-- `SBOM._from_cyclonedx` up to (excluding) the synthesized-edges step. -/
def cxBeforeSynth (obj : Json) : SBOM :=
  cxRootsPass obj (cxFallbackPass obj (cxAfterDeps obj))

/-- `SBOM._from_cyclonedx`. -/
def fromCyclonedx (obj : Json) : SBOM := cxSynthPass obj (cxBeforeSynth obj)

/-- `SBOM._spdx_pkg_label`. -/
def spdxLabel (pkg : Json) : Json :=
  let name := Json.pyOr (pkg.get "name") (Json.str "package")
  let version := Json.pyOr (pkg.get "versionInfo") (pkg.get "version")
  if version.truthy then
    Json.str (String.mk (Json.pyStr name ++ "@".data ++ Json.pyStr version))
  else name

def spdxPkgsPass (obj : Json) : SBOM :=
  (obj.get "packages").items.foldl
    (fun s pkg =>
      let sid := Json.pyOr (pkg.get "SPDXID") (pkg.get "spdxid")
      if sid.truthy then { s with nodes := dictSet s.nodes sid (spdxLabel pkg) } else s)
    {}

/-- The reverse relationship types of `SBOM._from_spdx`. -/
def reverseTypes : List Str :=
  ["RUNTIME_DEPENDENCY_OF".data, "BUILD_DEPENDENCY_OF".data, "DEV_DEPENDENCY_OF".data,
   "TEST_DEPENDENCY_OF".data, "OPTIONAL_DEPENDENCY_OF".data,
   "STATIC_LINK".data, "DYNAMIC_LINK".data,
   "DATA_FILE_OF".data, "EXAMPLE_OF".data, "GENERATED_FROM".data, "PATCH_FOR".data,
   "PREREQUISITE_FOR".data, "AMENDS".data, "DEPENDENCY_MANIFEST_OF".data]

/-- The forward relationship types of `SBOM._from_spdx`. -/
def forwardTypes : List Str := ["DEPENDS_ON".data, "PREREQUISITE".data]

/-- Normalized relationship type: uppercased with hyphens replaced by
underscores (of `relationshipType or` the empty string). -/
def relNorm (rel : Json) : Str :=
  replaceDash (strUpper (Json.pyStr (Json.pyOr (rel.get "relationshipType") (Json.str ""))))

def spdxSrc (rel : Json) : Json :=
  Json.pyOr (rel.get "spdxElementId") (rel.get "sourceElement")

def spdxDst (rel : Json) : Json :=
  Json.pyOr (rel.get "relatedSpdxElement") (rel.get "targetElement")

/-- One entry of the `relationships` array. -/
def spdxRelStep (s : SBOM) (rel : Json) : SBOM :=
  let rt := relNorm rel
  let src := spdxSrc rel
  let dst := spdxDst rel
  if src.truthy ∧ dst.truthy then
    let s1 := { s with nodes := dictSetdefault (dictSetdefault s.nodes src src) dst dst }
    if rt ∈ forwardTypes then { s1 with edges := edgeAdd s1.edges src dst }
    else if rt ∈ reverseTypes then { s1 with edges := edgeAdd s1.edges dst src }
    else s1
  else s

/-- `documentDescribes`, normalized: a string becomes a singleton, a list is
iterated; CPython iterates a dict's keys. -/
def spdxDescList (obj : Json) : List Json :=
  let d := Json.pyOr (obj.get "documentDescribes") Json.arrNil
  match d with
  | .str s => [Json.str s]
  | .objCons k v t => (Json.objCons k v t).keys.map Json.str
  | other => other.items

/-- Root selection of `SBOM._from_spdx`. -/
def spdxDescPass (obj : Json) (s : SBOM) : SBOM :=
  let s1 := (spdxDescList obj).foldl
    (fun s2 rid => if dictHasKey s2.nodes rid then { s2 with roots := setAdd s2.roots rid } else s2) s
  if s1.roots = [] then
    let inEdges := edgeTargets s1.edges
    { s1 with roots := (s1.nodes.map (fun p => p.1)).filter (fun k => k ∉ inEdges) }
  else s1

/-- `SBOM._from_spdx`. -/
def fromSpdx (obj : Json) : SBOM :=
  spdxDescPass obj ((obj.get "relationships").items.foldl spdxRelStep (spdxPkgsPass obj))

/-- The CycloneDX branch of the detection rule: a mapping whose `bomFormat`
equals "CycloneDX" or containing a `components` or `dependencies` key. -/
def cxMatch (obj : Json) : Prop :=
  obj.isObj = true ∧ (obj.get "bomFormat" = Json.str "CycloneDX" ∨
    obj.hasKey "components" = true ∨ obj.hasKey "dependencies" = true)

/-- The SPDX branch of the detection rule: a mapping containing a
`packages` or `relationships` key. -/
def spdxMatch (obj : Json) : Prop :=
  obj.isObj = true ∧ (obj.hasKey "packages" = true ∨ obj.hasKey "relationships" = true)

instance (obj : Json) : Decidable (cxMatch obj) := by
  unfold cxMatch
  infer_instance

instance (obj : Json) : Decidable (spdxMatch obj) := by
  unfold spdxMatch
  infer_instance

/-- `SBOM.from_json`: ordered format detection, raising on no match
(`ValueError`, the spec's `FormatError`). -/
def from_json (obj : Json) : Except String SBOM :=
  if cxMatch obj then Except.ok (fromCyclonedx obj)
  else if spdxMatch obj then Except.ok (fromSpdx obj)
  else
    Except.error "Unsupported SBOM format. Expected CycloneDX JSON (preferred) or SPDX JSON."

/-- Sort key used by every traversal: the node's label (falling back to the
id), lowercased.  Note there is no id tie-break in the source. -/
def labelKey (s : SBOM) (rid : Json) : Str :=
  strLower (Json.pyStr ((dictGet s.nodes rid).getD rid))

/-- `build_forest`. -/
def build_forest (s : SBOM) (startIds : List Json) : List Json :=
  if startIds ≠ [] then
    let roots := startIds.filter (fun rid => dictHasKey s.nodes rid)
    if roots ≠ [] then roots else sortByKey (labelKey s) s.roots
  else sortByKey (labelKey s) s.roots

/-- `sbom.nodes.get(k, dflt)` as a state-threading read: the value and the
(unchanged) graph, mirroring that `.get` never writes. -/
def nodesGetSt (st : SBOM) (k dflt : Json) : Json × SBOM :=
  ((dictGet st.nodes k).getD dflt, st)

/-- `sbom.edges.get(k, default)` as a state-threading read. -/
def edgesGetSt (st : SBOM) (k : Json) : List Json × SBOM :=
  ((dictGet st.edges k).getD [], st)

/-- `sbom.edges[k]` on the defaultdict: inserts an empty entry on a miss.
The renderers never call this accessor; it documents what a mutation of the
graph during rendering would look like. -/
def edgesIndexSt (st : SBOM) (k : Json) : List Json × SBOM :=
  match dictGet st.edges k with
  | some v => (v, st)
  | none => ([], { st with edges := st.edges ++ [(k, [])] })

/-- The child list every traversal iterates: the stored child set sorted by
lowercased label. -/
def sortedChildren (st : SBOM) (n : Json) : List Json :=
  sortByKey (labelKey st) ((dictGet st.edges n).getD [])

/-- `max_depth is not None and depth >= max_depth`. -/
def depthHit (maxDepth : Option Nat) (depth : Nat) : Bool :=
  match maxDepth with
  | some md => depth ≥ md
  | none => false

/-- The children loop of `ascii_trees.render`; `rec` is the recursive call
on one child.  State: emitted lines, `visited_global`, the graph. -/
def renderKidsAux (includeDupes : Bool)
    (rec : Json → Str → List Json → Bool → Nat → List Json → SBOM →
      Option (List Str × List Json × SBOM)) :
    List Json → Str → List Json → Nat → List Json → SBOM →
      Option (List Str × List Json × SBOM)
  | [], _, _, _, vg, st => some ([], vg, st)
  | child :: rest, np, seen, depth, vg, st =>
    if includeDupes = false ∧ child ∈ vg then
      let lblSt := nodesGetSt st child child
      match renderKidsAux includeDupes rec rest np seen depth vg lblSt.2 with
      | none => none
      | some (ls, vg2, st2) =>
        some ((np ++ "+-- ".data ++ Json.pyStr lblSt.1 ++ "  (seen)".data) :: ls, vg2, st2)
    else
      let vg1 := setAdd vg child
      match rec child np seen rest.isEmpty depth vg1 st with
      | none => none
      | some (ls1, vg2, st2) =>
        match renderKidsAux includeDupes rec rest np seen depth vg2 st2 with
        | none => none
        | some (ls2, vg3, st3) => some (ls1 ++ ls2, vg3, st3)

/-- `ascii_trees.render` with fuel; `none` models a recursion that would
not have returned yet. -/
def renderF (showIds : Bool) (maxDepth : Option Nat) (includeDupes : Bool) :
    Nat → Json → Str → List Json → Bool → Nat → List Json → SBOM →
      Option (List Str × List Json × SBOM)
  | 0, _, _, _, _, _, _, _ => none
  | fuel+1, node, pref, seen, last, depth, vg, st =>
    let lblSt := nodesGetSt st node node
    let nodeText :=
      if showIds then Json.pyStr lblSt.1 ++ " <".data ++ Json.pyStr node ++ ">".data
      else Json.pyStr lblSt.1
    let tee := if depth > 0 then "+-- ".data else ([] : Str)
    let first := pref ++ tee ++ nodeText
    if depthHit maxDepth depth then some ([first], vg, lblSt.2)
    else if node ∈ seen then
      some ([first, pref ++ (if last then "    ".data else "|   ".data) ++ "+-- (cycle)".data],
        vg, lblSt.2)
    else
      let csSt := edgesGetSt lblSt.2 node
      let children := sortByKey (labelKey csSt.2) csSt.1
      let np := pref ++ (if last then "    ".data else "|   ".data)
      match renderKidsAux includeDupes (renderF showIds maxDepth includeDupes fuel)
          children np (seen ++ [node]) (depth + 1) vg csSt.2 with
      | none => none
      | some (ls, vg2, st2) => some (first :: ls, vg2, st2)

/-- The per-root loop of `ascii_trees`: fresh ancestor path per root, one
shared `visited_global`, a blank line after each tree. -/
def asciiTreesF (showIds : Bool) (maxDepth : Option Nat) (includeDupes : Bool) (fuel : Nat) :
    List Json → List Json → SBOM → Option (List Str × List Json × SBOM)
  | [], vg, st => some ([], vg, st)
  | r :: rs, vg, st =>
    match renderF showIds maxDepth includeDupes fuel r [] [] true 0 vg st with
    | none => none
    | some (ls1, vg2, st2) =>
      match asciiTreesF showIds maxDepth includeDupes fuel rs vg2 st2 with
      | none => none
      | some (ls2, vg3, st3) => some (ls1 ++ [[]] ++ ls2, vg3, st3)

def allTargets (s : SBOM) : List Json := edgeTargets s.edges

/-- Fuel that the termination theorem proves sufficient for every graph. -/
def traversalFuel (s : SBOM) : Nat := (allTargets s).length + 2

/-- `ascii_trees`, output as the list of printed lines. -/
def ascii_trees (s : SBOM) (roots : List Json) (showIds : Bool) (maxDepth : Option Nat)
    (includeDupes : Bool) : Option (List Str) :=
  Option.map (fun r => r.1)
    (asciiTreesF showIds maxDepth includeDupes (traversalFuel s) roots [] s)

/-- The tree structure handed to the HTML renderer. -/
inductive D3Tree where
  | node (name : Str) (children : List D3Tree)

/-- The `[ make_node(k, seen) for k in kids ]` loop, threading the graph. -/
def d3KidsAux (rec : Json → List Json → SBOM → Option (D3Tree × SBOM)) :
    List Json → List Json → SBOM → Option (List D3Tree × SBOM)
  | [], _, st => some ([], st)
  | k :: ks, seen, st =>
    match rec k seen st with
    | none => none
    | some (t, st1) =>
      match d3KidsAux rec ks seen st1 with
      | none => none
      | some (ts, st2) => some (t :: ts, st2)

/-- `to_d3_tree.make_node` with fuel. -/
def makeNodeF : Nat → Json → List Json → SBOM → Option (D3Tree × SBOM)
  | 0, _, _, _ => none
  | fuel+1, node, seen, st =>
    let lblSt := nodesGetSt st node node
    let label := Json.pyStr lblSt.1
    if node ∈ seen then some (D3Tree.node (label ++ " ↺".data) [], lblSt.2)
    else
      let csSt := edgesGetSt lblSt.2 node
      let kids := sortByKey (labelKey csSt.2) csSt.1
      match d3KidsAux (makeNodeF fuel) kids (seen ++ [node]) csSt.2 with
      | none => none
      | some (ts, st2) => some (D3Tree.node label ts, st2)

/-- `to_d3_tree` with fuel: a single root is the tree itself, otherwise the
roots hang under a synthetic "SBOM Roots" node, each with a fresh path set. -/
def to_d3_treeF (fuel : Nat) (roots : List Json) (st : SBOM) : Option (D3Tree × SBOM) :=
  match roots with
  | [r] => makeNodeF fuel r [] st
  | rs =>
    match d3KidsAux (makeNodeF fuel) rs [] st with
    | none => none
    | some (ts, st1) => some (D3Tree.node "SBOM Roots".data ts, st1)

def to_d3_tree (s : SBOM) (roots : List Json) : Option D3Tree :=
  Option.map (fun r => r.1) (to_d3_treeF (traversalFuel s) roots s)

/-- The deque-based reachability walk of `to_dot` (one root's `while dq`). -/
def bfsF : Nat → List Json → List Json → SBOM → List Json × SBOM
  | 0, _, reach, st => (reach, st)
  | _+1, [], reach, st => (reach, st)
  | fuel+1, n :: dq, reach, st =>
    if n ∈ reach then bfsF fuel dq reach st
    else
      let csSt := edgesGetSt st n
      bfsF fuel (dq ++ csSt.1) (reach ++ [n]) csSt.2

def dotNodeLinesF : List Json → SBOM → List Str × SBOM
  | [], st => ([], st)
  | n :: ns, st =>
    let lblSt := nodesGetSt st n n
    let line := "  \"".data ++ Json.pyStr n ++ "\" [label=\"".data ++
      escQuote (Json.pyStr lblSt.1) ++ "\"];".data
    let restSt := dotNodeLinesF ns lblSt.2
    (line :: restSt.1, restSt.2)

def dotEdgeLinesF (reach : List Json) : List Json → SBOM → List Str × SBOM
  | [], st => ([], st)
  | src :: srcs, st =>
    let csSt := edgesGetSt st src
    let dsts := (pySortedIds csSt.1).filter (fun d => d ∈ reach)
    let lines := dsts.map (fun d =>
      "  \"".data ++ Json.pyStr src ++ "\" -> \"".data ++ Json.pyStr d ++ "\";".data)
    let restSt := dotEdgeLinesF reach srcs csSt.2
    (lines ++ restSt.1, restSt.2)

/-- The per-root reachability loop of `to_dot`. -/
def dotReachF (fuel : Nat) : List Json → List Json → SBOM → List Json × SBOM
  | [], reach, st => (reach, st)
  | r :: rs, reach, st =>
    let one := bfsF fuel [r] reach st
    dotReachF fuel rs one.1 one.2

/-- `to_dot`, output as the list of joined lines. -/
def toDotF (fuel : Nat) (roots : List Json) (st : SBOM) : List Str × SBOM :=
  let reachSt := dotReachF fuel roots [] st
  let sortedReach := pySortedIds reachSt.1
  let nl := dotNodeLinesF sortedReach reachSt.2
  let el := dotEdgeLinesF reachSt.1 sortedReach nl.2
  (["digraph SBOM \x7b".data, "  rankdir=LR;".data, "  node [shape=box, fontsize=10];".data] ++
    nl.1 ++ el.1 ++ ["\x7d".data], el.2)

def to_dot (s : SBOM) (roots : List Json) : List Str :=
  (toDotF (traversalFuel s) roots s).1

/-- `build_forest` with its (read-only) access to the graph made explicit. -/
def buildForestSt (st : SBOM) (startIds : List Json) : List Json × SBOM :=
  (build_forest st startIds, st)

/-- The graph after an optional render result, defaulting to `d`. -/
def stAfterR (o : Option (List Str × List Json × SBOM)) (d : SBOM) : SBOM :=
  match o with
  | some r => r.2.2
  | none => d

/-- The graph after an optional tree-build result, defaulting to `d`. -/
def stAfterT (o : Option (D3Tree × SBOM)) (d : SBOM) : SBOM :=
  match o with
  | some r => r.2
  | none => d

/-- The order every traversal sorts by: `a` before `b` when `a`'s key is not
greater (so equal keys keep their prior relative order). -/
def keyLe (key : Json → Str) (a b : Json) : Prop := strLtb (key b) (key a) = false

/-- The Graph invariants of the specification: every id occurring in the
edge map as a source or as a target is a node, and every candidate root is
a node. -/
def graphInv (s : SBOM) : Prop :=
  (∀ k ∈ edgeSources s.edges, dictHasKey s.nodes k = true) ∧
  (∀ t ∈ edgeTargets s.edges, dictHasKey s.nodes t = true) ∧
  (∀ r ∈ s.roots, dictHasKey s.nodes r = true)

/-- Append a pair unless already present (set semantics on a pair list). -/
def addPair (a : List (Json × Json)) (p : Json × Json) : List (Json × Json) :=
  if p ∈ a then a else a ++ [p]

/-- The distinct dependency edges listed by the top-level `dependencies`
section: pairs (ref, child) with truthy ref and child, deduplicated. -/
def cxTopPairsStep (acc : List (Json × Json)) (dep : Json) : List (Json × Json) :=
  let ref := dep.get "ref"
  if ref.truthy then
    (dep.get "dependsOn").items.foldl
      (fun a child => if child.truthy then addPair a (ref, child) else a) acc
  else acc

def cxTopPairs (obj : Json) : List (Json × Json) :=
  (obj.get "dependencies").items.foldl cxTopPairsStep []

/-- The distinct dependency edges listed inline on components (the pairs
the fallback pass would add), deduplicated. -/
def cxInlinePairs (obj : Json) : List (Json × Json) :=
  (obj.get "components").items.foldl
    (fun a c =>
      (c.get "dependencies").items.foldl (fun a2 child => addPair a2 (cxCompId c, child)) a)
    []

/-- The distinct dependency edges the document lists, as the program reads
them: the top-level section when it yields any, else the inline lists. -/
def cxListedEdges (obj : Json) : List (Json × Json) :=
  if cxTopPairs obj = [] then cxInlinePairs obj else cxTopPairs obj

/-- Well-formedness the edge map maintains: unique source keys, duplicate-
free child lists, no empty entries. -/
def edgesWf (e : List (Json × List Json)) : Prop :=
  (edgeSources e).Nodup ∧ (∀ p ∈ e, p.2.Nodup) ∧ (∀ p ∈ e, p.2 ≠ [])

/-- `True` exactly on the error result of `from_json`. -/
def isFormatError : Except String SBOM → Bool
  | .error _ => true
  | .ok _ => false

def jstr (s : String) : Json := Json.str s

/-- Scenario A of the specification: two components, one dependency edge. -/
def docA : Json := mkObj
  [("components", mkArr [mkObj [("bom-ref", jstr "a")], mkObj [("bom-ref", jstr "b")]]),
   ("dependencies", mkArr [mkObj [("ref", jstr "a"), ("dependsOn", mkArr [jstr "b"])]])]

/-- Scenario B of the specification: Scenario A plus a `metadata.component`
declared root that is not wired into the dependency graph. -/
def docB : Json := mkObj
  [("components", mkArr [mkObj [("bom-ref", jstr "a")], mkObj [("bom-ref", jstr "b")]]),
   ("dependencies", mkArr [mkObj [("ref", jstr "a"), ("dependsOn", mkArr [jstr "b"])]]),
   ("metadata", mkObj [("component", mkObj [("bom-ref", jstr "root")])])]

/-- Two components with the same label "x" and ids "b" and "a", listed as
children in that order. -/
def docTie : Json := mkObj
  [("components", mkArr [mkObj [("bom-ref", jstr "b"), ("name", jstr "x")],
      mkObj [("bom-ref", jstr "a"), ("name", jstr "x")]]),
   ("dependencies", mkArr [mkObj [("ref", jstr "r"), ("dependsOn", mkArr [jstr "b", jstr "a"])]])]

/-- A component with an inline dependency list and no id field at all. -/
def docNullId : Json := mkObj
  [("components", mkArr [mkObj [("dependencies", mkArr [jstr "x"])]])]

/-- A reverse-type SPDX relationship between "X" and "Y". -/
def relRev : Json := mkObj
  [("relationshipType", jstr "DEV_DEPENDENCY_OF"),
   ("spdxElementId", jstr "X"), ("relatedSpdxElement", jstr "Y")]

/-- A two-node cycle a → b → a. -/
def exCyc : SBOM :=
  { nodes := [(jstr "a", jstr "a"), (jstr "b", jstr "b")],
    edges := [(jstr "a", [jstr "b"]), (jstr "b", [jstr "a"])],
    roots := [jstr "a"] }

/-- Node "a" requested as a root and also reachable as a child of root "c". -/
def exShared : SBOM :=
  { nodes := [(jstr "a", jstr "a"), (jstr "c", jstr "c")],
    edges := [(jstr "c", [jstr "a"])],
    roots := [jstr "a", jstr "c"] }

/-! ### Lemmas: folds, dictionaries, sets, edges -/

theorem foldl_preserve {β : Type} {P : SBOM → Prop} {step : SBOM → β → SBOM}
    (h : ∀ s x, P s → P (step s x)) :
    ∀ (l : List β) (s : SBOM), P s → P (l.foldl step s) := by
  intro l
  induction l with
  | nil => intro s hs; simpa using hs
  | cons x xs ih => intro s hs; simpa using ih _ (h s x hs)

theorem foldl_reach {β : Type} {P : SBOM → Prop} {step : SBOM → β → SBOM} {x : β}
    (mono : ∀ s y, P s → P (step s y)) (hx : ∀ s, P (step s x)) :
    ∀ (l : List β) (s : SBOM), x ∈ l → P (l.foldl step s) := by
  intro l
  induction l with
  | nil => intro s hmem; simp at hmem
  | cons y ys ih =>
    intro s hmem
    rcases List.mem_cons.mp hmem with h | h
    · subst h
      simpa using foldl_preserve mono ys (step s x) (hx s)
    · simpa using ih (step s y) h

theorem dictGet_mem {α : Type} {m : List (Json × α)} {k : Json} {v : α}
    (h : dictGet m k = some v) : (k, v) ∈ m := by
  induction m with
  | nil => simp [dictGet] at h
  | cons p rest ih =>
    by_cases hk : p.1 = k
    · rw [show p = (p.1, p.2) from rfl, dictGet, if_pos hk] at h
      simp only [Option.some.injEq] at h
      have h1 : p = (k, v) := by
        rw [show p = (p.1, p.2) from rfl, hk, h]
      rw [h1]
      exact List.mem_cons_self _ _
    · rw [show p = (p.1, p.2) from rfl, dictGet, if_neg hk] at h
      exact List.mem_cons_of_mem _ (ih h)

theorem dictGet_append {α : Type} (m m' : List (Json × α)) (k : Json) :
    dictGet (m ++ m') k = (dictGet m k).or (dictGet m' k) := by
  induction m with
  | nil => simp [dictGet]
  | cons p rest ih =>
    by_cases hk : p.1 = k
    · rw [show p = (p.1, p.2) from rfl]
      simp [dictGet, hk]
    · rw [show p = (p.1, p.2) from rfl]
      simp [dictGet, hk, ih]

theorem dictHasKey_dictSet_self {α : Type} (m : List (Json × α)) (k : Json) (v : α) :
    dictHasKey (dictSet m k v) k = true := by
  induction m with
  | nil => simp [dictSet, dictHasKey, dictGet]
  | cons p rest ih =>
    by_cases hk : p.1 = k
    · rw [show p = (p.1, p.2) from rfl, dictSet, if_pos hk]
      simp [dictHasKey, dictGet, hk]
    · rw [show p = (p.1, p.2) from rfl, dictSet, if_neg hk]
      simpa [dictHasKey, dictGet, hk] using ih

theorem dictHasKey_dictSet_of {α : Type} (m : List (Json × α)) (k k2 : Json) (v : α)
    (h : dictHasKey m k2 = true) : dictHasKey (dictSet m k v) k2 = true := by
  induction m with
  | nil => simp [dictHasKey, dictGet] at h
  | cons p rest ih =>
    by_cases hk : p.1 = k
    · rw [show p = (p.1, p.2) from rfl, dictSet, if_pos hk]
      by_cases h2 : p.1 = k2
      · simp [dictHasKey, dictGet, h2]
      · rw [show p = (p.1, p.2) from rfl, dictHasKey, dictGet, if_neg h2] at h
        simp [dictHasKey, dictGet, h2]
        simpa [dictHasKey] using h
    · rw [show p = (p.1, p.2) from rfl, dictSet, if_neg hk]
      by_cases h2 : p.1 = k2
      · simp [dictHasKey, dictGet, h2]
      · rw [show p = (p.1, p.2) from rfl, dictHasKey, dictGet, if_neg h2] at h
        simp [dictHasKey, dictGet, h2]
        have := ih (by simpa [dictHasKey] using h)
        simpa [dictHasKey] using this

theorem dictHasKey_dictSetdefault_self {α : Type} (m : List (Json × α)) (k : Json) (v : α) :
    dictHasKey (dictSetdefault m k v) k = true := by
  unfold dictSetdefault
  by_cases h : dictHasKey m k = true
  · simp [h]
  · simp [h]
    simp [dictHasKey, dictGet_append]
    rcases heq : dictGet m k with _ | v'
    · simp [dictGet]
    · simp

theorem dictHasKey_dictSetdefault_of {α : Type} (m : List (Json × α)) (k k2 : Json) (v : α)
    (h : dictHasKey m k2 = true) : dictHasKey (dictSetdefault m k v) k2 = true := by
  unfold dictSetdefault
  by_cases hk : dictHasKey m k = true
  · simp [hk, h]
  · simp [hk]
    simp [dictHasKey, dictGet_append]
    rcases heq : dictGet m k2 with _ | v'
    · simp [dictHasKey, heq] at h
    · simp

theorem mem_setAdd (s : List Json) (x y : Json) :
    y ∈ setAdd s x ↔ (y ∈ s ∨ y = x) := by
  unfold setAdd
  by_cases h : x ∈ s
  · rw [if_pos h]
    constructor
    · exact Or.inl
    · rintro (hy | hy)
      · exact hy
      · subst hy; exact h
  · rw [if_neg h]
    simp

theorem edgePairs_nil : edgePairs [] = [] := rfl

theorem edgePairs_cons (p : Json × List Json) (e : List (Json × List Json)) :
    edgePairs (p :: e) = p.2.map (fun c => (p.1, c)) ++ edgePairs e := by
  simp [edgePairs]

theorem mem_edgePairs_iff (e : List (Json × List Json)) (a b : Json) :
    (a, b) ∈ edgePairs e ↔ ∃ cs, (a, cs) ∈ e ∧ b ∈ cs := by
  induction e with
  | nil => simp [edgePairs]
  | cons p rest ih =>
    rcases p with ⟨k, cs0⟩
    rw [edgePairs_cons]
    simp only [List.mem_append, List.mem_map, List.mem_cons, ih, Prod.mk.injEq]
    aesop

theorem mem_edgePairs_edgeAdd (e : List (Json × List Json)) (src dst a b : Json) :
    (a, b) ∈ edgePairs (edgeAdd e src dst) ↔
      ((a, b) ∈ edgePairs e ∨ (a = src ∧ b = dst)) := by
  induction e with
  | nil =>
    simp [edgeAdd, edgePairs, Prod.mk.injEq]
  | cons p rest ih =>
    rcases p with ⟨k, cs0⟩
    by_cases hk : k = src
    · subst hk
      rw [edgeAdd, if_pos rfl, edgePairs_cons, edgePairs_cons]
      by_cases hd : dst ∈ cs0
      · rw [if_pos hd]
        simp only [List.mem_append, List.mem_map, Prod.mk.injEq]
        aesop
      · rw [if_neg hd]
        simp only [List.mem_append, List.mem_map, List.mem_cons, Prod.mk.injEq]
        aesop
    · rw [edgeAdd, if_neg hk, edgePairs_cons, edgePairs_cons]
      simp only [List.mem_append, ih]
      tauto

theorem mem_edgeTargets_iff (e : List (Json × List Json)) (x : Json) :
    x ∈ edgeTargets e ↔ ∃ p ∈ e, x ∈ p.2 := by
  simp only [edgeTargets, List.mem_flatten, List.mem_map]
  aesop

theorem mem_edgeTargets_of_dictGet {e : List (Json × List Json)} {n : Json} {cs : List Json}
    (h : dictGet e n = some cs) {c : Json} (hc : c ∈ cs) : c ∈ edgeTargets e :=
  (mem_edgeTargets_iff e c).mpr ⟨(n, cs), dictGet_mem h, hc⟩

/-! ### Lemmas: the lexicographic order and the stable sort -/

theorem strLtb_asymm : ∀ a b : Str, strLtb a b = true → strLtb b a = false
  | [], [] => by simp [strLtb]
  | [], _ :: _ => by simp [strLtb]
  | _ :: _, [] => by simp [strLtb]
  | x :: xs, y :: ys => by
    intro h
    rw [strLtb] at h ⊢
    by_cases hxy : x < y
    · rw [if_neg (lt_asymm hxy), if_pos hxy]
    · by_cases hyx : y < x
      · rw [if_neg hxy, if_pos hyx] at h
        simp at h
      · rw [if_neg hxy, if_neg hyx] at h
        rw [if_neg hyx, if_neg hxy]
        exact strLtb_asymm xs ys h

theorem strLtb_trichot : ∀ a b : Str, strLtb a b = true ∨ strLtb b a = true ∨ a = b
  | [], [] => Or.inr (Or.inr rfl)
  | [], _ :: _ => Or.inl (by simp [strLtb])
  | _ :: _, [] => Or.inr (Or.inl (by simp [strLtb]))
  | x :: xs, y :: ys => by
    by_cases hxy : x < y
    · exact Or.inl (by rw [strLtb, if_pos hxy])
    · by_cases hyx : y < x
      · exact Or.inr (Or.inl (by rw [strLtb, if_pos hyx]))
      · have hxyeq : x = y := le_antisymm (not_lt.mp hyx) (not_lt.mp hxy)
        rcases strLtb_trichot xs ys with h | h | h
        · exact Or.inl (by rw [strLtb, if_neg hxy, if_neg hyx]; exact h)
        · exact Or.inr (Or.inl (by rw [strLtb, if_neg hyx, if_neg hxy]; exact h))
        · exact Or.inr (Or.inr (by rw [hxyeq, h]))

theorem strLtb_trans : ∀ a b c : Str, strLtb a b = true → strLtb b c = true → strLtb a c = true
  | [], [], _ => by intro h _; simp [strLtb] at h
  | [], _ :: _, [] => by intro _ h; simp [strLtb] at h
  | [], _ :: _, _ :: _ => by intro _ _; simp [strLtb]
  | _ :: _, [], _ => by intro h _; simp [strLtb] at h
  | _ :: _, _ :: _, [] => by intro _ h; simp [strLtb] at h
  | x :: xs, y :: ys, z :: zs => by
    intro h1 h2
    rw [strLtb] at h1 h2 ⊢
    by_cases hxy : x < y
    · by_cases hyz : y < z
      · rw [if_pos (lt_trans hxy hyz)]
      · by_cases hzy : z < y
        · rw [if_neg hyz, if_pos hzy] at h2
          simp at h2
        · have : y = z := le_antisymm (not_lt.mp hzy) (not_lt.mp hyz)
          rw [if_pos (this ▸ hxy)]
    · by_cases hyx : y < x
      · rw [if_neg hxy, if_pos hyx] at h1
        simp at h1
      · have hxyeq : x = y := le_antisymm (not_lt.mp hyx) (not_lt.mp hxy)
        rw [if_neg hxy, if_neg hyx] at h1
        by_cases hyz : y < z
        · rw [if_pos (hxyeq ▸ hyz)]
        · by_cases hzy : z < y
          · rw [if_neg hyz, if_pos hzy] at h2
            simp at h2
          · have hyzeq : y = z := le_antisymm (not_lt.mp hzy) (not_lt.mp hyz)
            rw [if_neg hyz, if_neg hzy] at h2
            have hxz : ¬ x < z := by rw [hxyeq, hyzeq]; exact lt_irrefl z
            have hzx : ¬ z < x := by rw [hxyeq, hyzeq]; exact lt_irrefl z
            rw [if_neg hxz, if_neg hzx]
            exact strLtb_trans xs ys zs h1 h2

theorem strLtb_neg_trans {a b c : Str} (h1 : strLtb b a = false) (h2 : strLtb c b = false) :
    strLtb c a = false := by
  cases hx : strLtb c a with
  | false => rfl
  | true =>
    rcases strLtb_trichot b a with hba | hab | hbaeq
    · rw [hba] at h1; simp at h1
    · have := strLtb_trans c a b hx hab
      rw [this] at h2; simp at h2
    · rw [← hbaeq] at hx
      rw [hx] at h2; simp at h2

theorem perm_insertByKey (key : Json → Str) (x : Json) :
    ∀ l : List Json, (insertByKey key x l).Perm (x :: l)
  | [] => List.Perm.refl _
  | y :: ys => by
    rw [insertByKey]
    by_cases h : strLtb (key y) (key x) = true
    · rw [if_pos h]
      exact ((perm_insertByKey key x ys).cons y).trans (List.Perm.swap x y ys)
    · rw [if_neg h]

theorem perm_sortByKey (key : Json → Str) : ∀ l : List Json, (sortByKey key l).Perm l
  | [] => List.Perm.refl _
  | x :: xs => by
    rw [sortByKey]
    exact (perm_insertByKey key x _).trans ((perm_sortByKey key xs).cons x)

theorem mem_sortByKey (key : Json → Str) (l : List Json) (a : Json) :
    a ∈ sortByKey key l ↔ a ∈ l :=
  (perm_sortByKey key l).mem_iff

theorem sorted_insertByKey (key : Json → Str) (x : Json) :
    ∀ l : List Json, l.Pairwise (keyLe key) → (insertByKey key x l).Pairwise (keyLe key)
  | [], _ => by simp [insertByKey]
  | y :: ys, hp => by
    rw [insertByKey]
    rcases List.pairwise_cons.mp hp with ⟨hy, hys⟩
    by_cases h : strLtb (key y) (key x) = true
    · rw [if_pos h]
      refine List.pairwise_cons.mpr ⟨?_, sorted_insertByKey key x ys hys⟩
      intro z hz
      rcases List.mem_cons.mp ((perm_insertByKey key x ys).mem_iff.mp hz) with rfl | hz2
      · exact strLtb_asymm _ _ h
      · exact hy z hz2
    · rw [if_neg h]
      have hx : strLtb (key y) (key x) = false := by
        revert h; cases strLtb (key y) (key x) <;> simp
      refine List.pairwise_cons.mpr ⟨?_, hp⟩
      intro z hz
      rcases List.mem_cons.mp hz with rfl | hz2
      · exact hx
      · exact strLtb_neg_trans hx (hy z hz2)

theorem sorted_sortByKey (key : Json → Str) :
    ∀ l : List Json, (sortByKey key l).Pairwise (keyLe key)
  | [] => List.Pairwise.nil
  | x :: xs => by
    rw [sortByKey]
    exact sorted_insertByKey key x _ (sorted_sortByKey key xs)

/-! ### Lemmas: no traversal ever writes to the graph -/

theorem renderKidsAux_st (incl : Bool)
    (rec : Json → Str → List Json → Bool → Nat → List Json → SBOM →
      Option (List Str × List Json × SBOM))
    (hrec : ∀ c np seen last depth vg st r, rec c np seen last depth vg st = some r → r.2.2 = st) :
    ∀ (cs : List Json) (np : Str) (seen : List Json) (depth : Nat) (vg : List Json)
      (st : SBOM) (r : List Str × List Json × SBOM),
      renderKidsAux incl rec cs np seen depth vg st = some r → r.2.2 = st := by
  intro cs
  induction cs with
  | nil =>
    intro np seen depth vg st r h
    simp only [renderKidsAux, Option.some.injEq] at h
    rw [← h]
  | cons child rest ih =>
    intro np seen depth vg st r h
    simp only [renderKidsAux, nodesGetSt] at h
    split at h
    · split at h
      · exact absurd h (by simp)
      · rename_i ls vg2 st2 heq
        simp only [Option.some.injEq] at h
        subst h
        show st2 = st
        exact ih _ _ _ _ _ _ heq
    · split at h
      · exact absurd h (by simp)
      · rename_i ls1 vg2 st2 heq
        split at h
        · exact absurd h (by simp)
        · rename_i ls2 vg3 st3 heq2
          simp only [Option.some.injEq] at h
          subst h
          show st3 = st
          have h1 := hrec _ _ _ _ _ _ _ _ heq
          have h2 := ih _ _ _ _ _ _ heq2
          exact h2.trans h1

theorem renderF_st (showIds : Bool) (maxDepth : Option Nat) (incl : Bool) :
    ∀ (fuel : Nat) (node : Json) (pref : Str) (seen : List Json) (last : Bool) (depth : Nat)
      (vg : List Json) (st : SBOM) (r : List Str × List Json × SBOM),
      renderF showIds maxDepth incl fuel node pref seen last depth vg st = some r → r.2.2 = st := by
  intro fuel
  induction fuel with
  | zero => intro node pref seen last depth vg st r h; simp [renderF] at h
  | succ fuel ih =>
    intro node pref seen last depth vg st r h
    simp only [renderF, nodesGetSt, edgesGetSt] at h
    split at h
    · simp only [Option.some.injEq] at h; subst h; rfl
    · split at h
      · simp only [Option.some.injEq] at h; subst h; rfl
      · split at h
        · exact absurd h (by simp)
        · rename_i ls vg2 st2 heq
          simp only [Option.some.injEq] at h
          subst h
          show st2 = st
          exact renderKidsAux_st incl _ (fun c np sn la d v s q hq => ih c np sn la d v s q hq)
            _ _ _ _ _ _ _ heq

theorem asciiTreesF_st (showIds : Bool) (maxDepth : Option Nat) (incl : Bool) (fuel : Nat) :
    ∀ (roots vg : List Json) (st : SBOM) (r : List Str × List Json × SBOM),
      asciiTreesF showIds maxDepth incl fuel roots vg st = some r → r.2.2 = st := by
  intro roots
  induction roots with
  | nil =>
    intro vg st r h
    simp only [asciiTreesF, Option.some.injEq] at h
    rw [← h]
  | cons root rs ih =>
    intro vg st r h
    simp only [asciiTreesF] at h
    split at h
    · exact absurd h (by simp)
    · rename_i ls1 vg2 st2 heq
      split at h
      · exact absurd h (by simp)
      · rename_i ls2 vg3 st3 heq2
        simp only [Option.some.injEq] at h
        subst h
        show st3 = st
        exact (ih _ _ _ heq2).trans (renderF_st showIds maxDepth incl fuel _ _ _ _ _ _ _ _ heq)

theorem d3KidsAux_st (rec : Json → List Json → SBOM → Option (D3Tree × SBOM))
    (hrec : ∀ n seen st r, rec n seen st = some r → r.2 = st) :
    ∀ (ks seen : List Json) (st : SBOM) (r : List D3Tree × SBOM),
      d3KidsAux rec ks seen st = some r → r.2 = st := by
  intro ks
  induction ks with
  | nil =>
    intro seen st r h
    simp only [d3KidsAux, Option.some.injEq] at h
    rw [← h]
  | cons k rest ih =>
    intro seen st r h
    simp only [d3KidsAux] at h
    split at h
    · exact absurd h (by simp)
    · rename_i t st1 heq
      split at h
      · exact absurd h (by simp)
      · rename_i ts st2 heq2
        simp only [Option.some.injEq] at h
        subst h
        show st2 = st
        exact (ih _ _ _ heq2).trans (hrec _ _ _ _ heq)

theorem makeNodeF_st :
    ∀ (fuel : Nat) (node : Json) (seen : List Json) (st : SBOM) (r : D3Tree × SBOM),
      makeNodeF fuel node seen st = some r → r.2 = st := by
  intro fuel
  induction fuel with
  | zero => intro node seen st r h; simp [makeNodeF] at h
  | succ fuel ih =>
    intro node seen st r h
    simp only [makeNodeF, nodesGetSt, edgesGetSt] at h
    split at h
    · simp only [Option.some.injEq] at h; subst h; rfl
    · split at h
      · exact absurd h (by simp)
      · rename_i ts st2 heq
        simp only [Option.some.injEq] at h
        subst h
        show st2 = st
        exact d3KidsAux_st _ (fun n sn s q hq => ih n sn s q hq) _ _ _ _ heq

theorem to_d3_treeF_st (fuel : Nat) :
    ∀ (roots : List Json) (st : SBOM) (r : D3Tree × SBOM),
      to_d3_treeF fuel roots st = some r → r.2 = st := by
  intro roots st r h
  match roots with
  | [rt] =>
    simp only [to_d3_treeF] at h
    exact makeNodeF_st _ _ _ _ _ h
  | [] =>
    simp only [to_d3_treeF] at h
    split at h
    · exact absurd h (by simp)
    · rename_i ts st1 heq
      simp only [Option.some.injEq] at h
      subst h
      show st1 = st
      exact d3KidsAux_st _ (fun n sn s q hq => makeNodeF_st fuel n sn s q hq) _ _ _ _ heq
  | r1 :: r2 :: rs =>
    simp only [to_d3_treeF] at h
    split at h
    · exact absurd h (by simp)
    · rename_i ts st1 heq
      simp only [Option.some.injEq] at h
      subst h
      show st1 = st
      exact d3KidsAux_st _ (fun n sn s q hq => makeNodeF_st fuel n sn s q hq) _ _ _ _ heq

theorem bfsF_st : ∀ (fuel : Nat) (dq reach : List Json) (st : SBOM),
    (bfsF fuel dq reach st).2 = st := by
  intro fuel
  induction fuel with
  | zero => intro dq reach st; rfl
  | succ fuel ih =>
    intro dq reach st
    cases dq with
    | nil => rfl
    | cons n rest =>
      rw [bfsF]
      by_cases h : n ∈ reach
      · rw [if_pos h]; exact ih _ _ _
      · rw [if_neg h]; exact ih _ _ _

theorem dotReachF_st (fuel : Nat) : ∀ (roots reach : List Json) (st : SBOM),
    (dotReachF fuel roots reach st).2 = st := by
  intro roots
  induction roots with
  | nil => intro reach st; rfl
  | cons r rs ih =>
    intro reach st
    rw [dotReachF]
    exact (ih _ _).trans (bfsF_st fuel [r] reach st)

theorem dotNodeLinesF_st : ∀ (ns : List Json) (st : SBOM), (dotNodeLinesF ns st).2 = st := by
  intro ns
  induction ns with
  | nil => intro st; rfl
  | cons n rest ih => intro st; exact ih st

theorem dotEdgeLinesF_st (reach : List Json) :
    ∀ (srcs : List Json) (st : SBOM), (dotEdgeLinesF reach srcs st).2 = st := by
  intro srcs
  induction srcs with
  | nil => intro st; rfl
  | cons s rest ih => intro st; exact ih st

theorem toDotF_st (fuel : Nat) (roots : List Json) (st : SBOM) : (toDotF fuel roots st).2 = st := by
  simp only [toDotF]
  rw [dotEdgeLinesF_st, dotNodeLinesF_st, dotReachF_st]

/-! ### Lemmas: the fuel bound is sufficient (termination of the walks) -/

theorem mem_children_targets {st : SBOM} {n c : Json}
    (hc : c ∈ sortByKey (labelKey st) ((dictGet st.edges n).getD [])) :
    c ∈ allTargets st := by
  rw [mem_sortByKey] at hc
  rcases heq : dictGet st.edges n with _ | cs
  · rw [heq] at hc; simp at hc
  · rw [heq] at hc
    simp only [Option.getD_some] at hc
    exact mem_edgeTargets_of_dictGet heq hc

theorem filter_decr (l seen : List Json) (n : Json) (hn : n ∈ l) (hns : n ∉ seen) :
    (l.filter (fun x => decide (x ∉ seen ++ [n]))).length <
      (l.filter (fun x => decide (x ∉ seen))).length := by
  have hEq : l.filter (fun x => decide (x ∉ seen ++ [n]))
      = (l.filter (fun x => decide (x ∉ seen))).filter (fun x => decide (x ≠ n)) := by
    rw [List.filter_filter]
    apply List.filter_congr
    intro x _
    by_cases h1 : x ∈ seen <;> by_cases h2 : x = n <;> simp [h1, h2]
  rw [hEq]
  rw [List.length_filter_lt_length_iff_exists]
  exact ⟨n, List.mem_filter.mpr ⟨hn, by simp [hns]⟩, by simp⟩

theorem filter_same (l seen : List Json) (n : Json) (hn : n ∉ l) :
    l.filter (fun x => decide (x ∉ seen ++ [n])) = l.filter (fun x => decide (x ∉ seen)) := by
  apply List.filter_congr
  intro x hx
  have hne : x ≠ n := fun h => hn (h ▸ hx)
  by_cases h1 : x ∈ seen <;> simp [h1, hne]

theorem renderKidsAux_suff (showIds : Bool) (maxDepth : Option Nat) (incl : Bool) (fuel : Nat)
    (ih : ∀ (node : Json) (pref : Str) (seen : List Json) (last : Bool) (depth : Nat)
      (vg : List Json) (st : SBOM),
      ((allTargets st).filter (fun x => decide (x ∉ seen))).length
        + (if node ∈ seen ∨ node ∈ allTargets st then 0 else 1) < fuel →
      (renderF showIds maxDepth incl fuel node pref seen last depth vg st).isSome = true) :
    ∀ (cs : List Json) (np : Str) (seen : List Json) (depth : Nat) (vg : List Json) (st : SBOM),
      (∀ c ∈ cs, c ∈ allTargets st) →
      ((allTargets st).filter (fun x => decide (x ∉ seen))).length < fuel →
      (renderKidsAux incl (renderF showIds maxDepth incl fuel) cs np seen depth vg st).isSome
        = true := by
  intro cs
  induction cs with
  | nil => intro np seen depth vg st hcs hb; simp [renderKidsAux]
  | cons child rest ihc =>
    intro np seen depth vg st hcs hb
    simp only [renderKidsAux, nodesGetSt]
    split
    · have hrest := ihc np seen depth vg st (fun c hc => hcs c (List.mem_cons_of_mem _ hc)) hb
      rcases heq : renderKidsAux incl (renderF showIds maxDepth incl fuel) rest np seen depth
          vg st with _ | r2
      · rw [heq] at hrest
        simp at hrest
      · simp
    · have hchild : child ∈ allTargets st := hcs child (List.mem_cons_self _ _)
      have hrend := ih child np seen rest.isEmpty depth (setAdd vg child) st
        (by rw [if_pos (Or.inr hchild)]; omega)
      rcases heq : renderF showIds maxDepth incl fuel child np seen rest.isEmpty depth
          (setAdd vg child) st with _ | r1
      · rw [heq] at hrend; simp at hrend
      · rcases r1 with ⟨ls1, vg2, st2⟩
        have hst : st2 = st := renderF_st _ _ _ _ _ _ _ _ _ _ _ _ heq
        have hrest := ihc np seen depth vg2 st (fun c hc => hcs c (List.mem_cons_of_mem _ hc)) hb
        rw [hst]
        show (match renderKidsAux incl (renderF showIds maxDepth incl fuel) rest np seen depth
            vg2 st with
          | none => none
          | some (ls2, vg3, st3) => some (ls1 ++ ls2, vg3, st3)).isSome = true
        rcases heq2 : renderKidsAux incl (renderF showIds maxDepth incl fuel) rest np seen depth
            vg2 st with _ | r2
        · rw [heq2] at hrest; simp at hrest
        · simp

theorem renderF_suff (showIds : Bool) (maxDepth : Option Nat) (incl : Bool) :
    ∀ (fuel : Nat) (node : Json) (pref : Str) (seen : List Json) (last : Bool) (depth : Nat)
      (vg : List Json) (st : SBOM),
      ((allTargets st).filter (fun x => decide (x ∉ seen))).length
        + (if node ∈ seen ∨ node ∈ allTargets st then 0 else 1) < fuel →
      (renderF showIds maxDepth incl fuel node pref seen last depth vg st).isSome = true := by
  intro fuel
  induction fuel with
  | zero => intro node pref seen last depth vg st h; omega
  | succ fuel ih =>
    intro node pref seen last depth vg st h
    simp only [renderF, nodesGetSt, edgesGetSt]
    split
    · simp
    · split
      · simp
      · rename_i hseen
        have hb : ((allTargets st).filter (fun x => decide (x ∉ seen ++ [node]))).length
            < fuel := by
          by_cases ht : node ∈ allTargets st
          · have hd := filter_decr (allTargets st) seen node ht hseen
            rw [if_pos (Or.inr ht)] at h
            omega
          · rw [filter_same _ _ _ ht]
            rw [if_neg (by simp [hseen, ht])] at h
            omega
        have hkids := renderKidsAux_suff showIds maxDepth incl fuel ih
          (sortByKey (labelKey st) ((dictGet st.edges node).getD []))
          (pref ++ (if last then "    ".data else "|   ".data)) (seen ++ [node]) (depth + 1)
          vg st (fun c hc => mem_children_targets hc) hb
        rcases heq : renderKidsAux incl (renderF showIds maxDepth incl fuel)
            (sortByKey (labelKey st) ((dictGet st.edges node).getD []))
            (pref ++ (if last then "    ".data else "|   ".data)) (seen ++ [node]) (depth + 1)
            vg st with _ | r
        · rw [heq] at hkids; simp at hkids
        · simp

theorem asciiTreesF_suff (showIds : Bool) (maxDepth : Option Nat) (incl : Bool) :
    ∀ (roots vg : List Json) (st : SBOM),
      (asciiTreesF showIds maxDepth incl (traversalFuel st) roots vg st).isSome = true := by
  intro roots
  induction roots with
  | nil => intro vg st; simp [asciiTreesF]
  | cons r rs ih =>
    intro vg st
    have hbound : ((allTargets st).filter (fun x => decide (x ∉ ([] : List Json)))).length
        + (if r ∈ ([] : List Json) ∨ r ∈ allTargets st then 0 else 1) < traversalFuel st := by
      have hfl : (allTargets st).filter (fun x => decide (x ∉ ([] : List Json)))
          = allTargets st := by simp
      rw [hfl, traversalFuel]
      by_cases hmem : r ∈ allTargets st
      · rw [if_pos (Or.inr hmem)]; omega
      · rw [if_neg (by simp [hmem])]; omega
    have hr := renderF_suff showIds maxDepth incl (traversalFuel st) r [] [] true 0 vg st hbound
    simp only [asciiTreesF]
    rcases heq : renderF showIds maxDepth incl (traversalFuel st) r [] [] true 0 vg st with _ | r1
    · rw [heq] at hr; simp at hr
    · rcases r1 with ⟨ls1, vg2, st2⟩
      have hst : st2 = st := renderF_st _ _ _ _ _ _ _ _ _ _ _ _ heq
      have h2 := ih vg2 st
      rw [hst]
      show (match asciiTreesF showIds maxDepth incl (traversalFuel st) rs vg2 st with
        | none => none
        | some (ls2, vg3, st3) => some (ls1 ++ [[]] ++ ls2, vg3, st3)).isSome = true
      rcases heq2 : asciiTreesF showIds maxDepth incl (traversalFuel st) rs vg2 st with _ | r2
      · rw [heq2] at h2; simp at h2
      · simp

theorem d3KidsAux_suff (fuel : Nat)
    (ih : ∀ (node : Json) (seen : List Json) (st : SBOM),
      ((allTargets st).filter (fun x => decide (x ∉ seen))).length
        + (if node ∈ seen ∨ node ∈ allTargets st then 0 else 1) < fuel →
      (makeNodeF fuel node seen st).isSome = true) :
    ∀ (ks seen : List Json) (st : SBOM),
      (∀ k ∈ ks, ((allTargets st).filter (fun x => decide (x ∉ seen))).length
        + (if k ∈ seen ∨ k ∈ allTargets st then 0 else 1) < fuel) →
      (d3KidsAux (makeNodeF fuel) ks seen st).isSome = true := by
  intro ks
  induction ks with
  | nil => intro seen st hk; simp [d3KidsAux]
  | cons k rest ihk =>
    intro seen st hk
    have h1 := ih k seen st (hk k (List.mem_cons_self _ _))
    simp only [d3KidsAux]
    rcases heq : makeNodeF fuel k seen st with _ | r1
    · rw [heq] at h1; simp at h1
    · rcases r1 with ⟨t, st1⟩
      have hst : st1 = st := makeNodeF_st _ _ _ _ _ heq
      have h2 := ihk seen st (fun c hc => hk c (List.mem_cons_of_mem _ hc))
      rw [hst]
      show (match d3KidsAux (makeNodeF fuel) rest seen st with
        | none => none
        | some (ts, st2) => some (t :: ts, st2)).isSome = true
      rcases heq2 : d3KidsAux (makeNodeF fuel) rest seen st with _ | r2
      · rw [heq2] at h2; simp at h2
      · simp

theorem makeNodeF_suff :
    ∀ (fuel : Nat) (node : Json) (seen : List Json) (st : SBOM),
      ((allTargets st).filter (fun x => decide (x ∉ seen))).length
        + (if node ∈ seen ∨ node ∈ allTargets st then 0 else 1) < fuel →
      (makeNodeF fuel node seen st).isSome = true := by
  intro fuel
  induction fuel with
  | zero => intro node seen st h; omega
  | succ fuel ih =>
    intro node seen st h
    simp only [makeNodeF, nodesGetSt, edgesGetSt]
    split
    · simp
    · rename_i hseen
      have hb : ((allTargets st).filter (fun x => decide (x ∉ seen ++ [node]))).length
          < fuel := by
        by_cases ht : node ∈ allTargets st
        · have hd := filter_decr (allTargets st) seen node ht hseen
          rw [if_pos (Or.inr ht)] at h
          omega
        · rw [filter_same _ _ _ ht]
          rw [if_neg (by simp [hseen, ht])] at h
          omega
      have hkids := d3KidsAux_suff fuel ih
        (sortByKey (labelKey st) ((dictGet st.edges node).getD [])) (seen ++ [node]) st
        (fun c hc => by rw [if_pos (Or.inr (mem_children_targets hc))]; omega)
      rcases heq : d3KidsAux (makeNodeF fuel)
          (sortByKey (labelKey st) ((dictGet st.edges node).getD [])) (seen ++ [node]) st
          with _ | r
      · rw [heq] at hkids; simp at hkids
      · simp

theorem to_d3_treeF_suff : ∀ (roots : List Json) (st : SBOM),
    (to_d3_treeF (traversalFuel st) roots st).isSome = true := by
  intro roots st
  have hroot : ∀ r : Json,
      ((allTargets st).filter (fun x => decide (x ∉ ([] : List Json)))).length
        + (if r ∈ ([] : List Json) ∨ r ∈ allTargets st then 0 else 1) < traversalFuel st := by
    intro r
    have hfl : (allTargets st).filter (fun x => decide (x ∉ ([] : List Json)))
        = allTargets st := by simp
    rw [hfl, traversalFuel]
    by_cases hmem : r ∈ allTargets st
    · rw [if_pos (Or.inr hmem)]; omega
    · rw [if_neg (by simp [hmem])]; omega
  match roots with
  | [rt] =>
    simp only [to_d3_treeF]
    exact makeNodeF_suff _ rt [] st (hroot rt)
  | [] =>
    simp [to_d3_treeF, d3KidsAux]
  | r1 :: r2 :: rs =>
    simp only [to_d3_treeF]
    have hk := d3KidsAux_suff (traversalFuel st) (fun n sn s hc => makeNodeF_suff _ n sn s hc)
      (r1 :: r2 :: rs) [] st (fun k _ => hroot k)
    rcases heq : d3KidsAux (makeNodeF (traversalFuel st)) (r1 :: r2 :: rs) [] st with _ | r
    · rw [heq] at hk; simp at hk
    · simp

/-! ### Lemmas: shape of the normalizer passes -/

theorem mem_edgeSources_edgeAdd (e : List (Json × List Json)) (src dst x : Json) :
    x ∈ edgeSources (edgeAdd e src dst) ↔ (x ∈ edgeSources e ∨ x = src) := by
  induction e with
  | nil => simp [edgeAdd, edgeSources]
  | cons p rest ih =>
    rcases p with ⟨k, cs⟩
    by_cases hk : k = src
    · subst hk
      rw [edgeAdd, if_pos rfl]
      simp only [edgeSources, List.map_cons, List.mem_cons]
      tauto
    · rw [edgeAdd, if_neg hk]
      simp only [edgeSources, List.map_cons, List.mem_cons] at ih ⊢
      tauto

theorem mem_edgeTargets_edgeAdd (e : List (Json × List Json)) (src dst x : Json) :
    x ∈ edgeTargets (edgeAdd e src dst) ↔ (x ∈ edgeTargets e ∨ x = dst) := by
  induction e with
  | nil => simp [edgeAdd, edgeTargets]
  | cons p rest ih =>
    rcases p with ⟨k, cs⟩
    by_cases hk : k = src
    · subst hk
      rw [edgeAdd, if_pos rfl]
      by_cases hd : dst ∈ cs
      · rw [if_pos hd]
        simp only [edgeTargets, List.map_cons, List.flatten_cons, List.mem_append]
        constructor
        · exact Or.inl
        · rintro ((h | h) | h)
          · exact Or.inl h
          · exact Or.inr h
          · exact Or.inl (h ▸ hd)
      · rw [if_neg hd]
        simp only [edgeTargets, List.map_cons, List.flatten_cons, List.mem_append,
          List.mem_singleton]
        tauto
    · rw [edgeAdd, if_neg hk]
      simp only [edgeTargets, List.map_cons, List.flatten_cons, List.mem_append] at ih ⊢
      tauto

theorem dictSet_absent {α : Type} (m : List (Json × α)) (k : Json) (v : α)
    (h : dictHasKey m k = false) : dictSet m k v = m ++ [(k, v)] := by
  induction m with
  | nil => simp [dictSet]
  | cons p rest ih =>
    rcases p with ⟨k', v'⟩
    simp only [dictHasKey, dictGet] at h
    by_cases hk : k' = k
    · rw [if_pos hk] at h
      simp at h
    · rw [if_neg hk] at h
      rw [dictSet, if_neg hk, List.cons_append]
      rw [ih (by simpa [dictHasKey] using h)]

theorem edgePairs_append (e e' : List (Json × List Json)) :
    edgePairs (e ++ e') = edgePairs e ++ edgePairs e' := by
  simp [edgePairs]

theorem mem_keys_hasKey {α : Type} {m : List (Json × α)} {k : Json}
    (h : k ∈ m.map (fun p => p.1)) : dictHasKey m k = true := by
  induction m with
  | nil => simp at h
  | cons p rest ih =>
    rcases p with ⟨k', v'⟩
    simp only [List.map_cons, List.mem_cons] at h
    by_cases hk : k' = k
    · simp [dictHasKey, dictGet, hk]
    · rcases h with h | h
      · exact absurd h.symm hk
      · simpa [dictHasKey, dictGet, hk] using ih h

theorem mem_foldl_setAdd : ∀ (l acc : List Json) (x : Json),
    x ∈ l.foldl setAdd acc → x ∈ acc ∨ x ∈ l := by
  intro l
  induction l with
  | nil => intro acc x h; exact Or.inl (by simpa using h)
  | cons y ys ih =>
    intro acc x h
    simp only [List.foldl_cons] at h
    rcases ih (setAdd acc y) x h with h2 | h2
    · rcases (mem_setAdd acc y x).mp h2 with h3 | h3
      · exact Or.inl h3
      · exact Or.inr (h3 ▸ List.mem_cons_self _ _)
    · exact Or.inr (List.mem_cons_of_mem _ h2)

theorem cxMetaPass_nodesKey (obj : Json) (k : Json) (s : SBOM)
    (h : dictHasKey s.nodes k = true) : dictHasKey (cxMetaPass obj s).nodes k = true := by
  simp only [cxMetaPass]
  split
  · split
    · exact dictHasKey_dictSetdefault_of _ _ _ _ h
    · exact h
  · exact h

theorem cxDepStep_nodesKey (k : Json) (s : SBOM) (dep : Json)
    (h : dictHasKey s.nodes k = true) : dictHasKey (cxDepStep s dep).nodes k = true := by
  simp only [cxDepStep]
  split
  · apply foldl_preserve (P := fun s2 => dictHasKey s2.nodes k = true)
    · intro s2 child h2
      split
      · exact dictHasKey_dictSetdefault_of _ _ _ _ h2
      · exact h2
    · exact dictHasKey_dictSetdefault_of _ _ _ _ h
  · exact h

theorem cxDepsPass_nodesKey (obj : Json) (k : Json) (s : SBOM)
    (h : dictHasKey s.nodes k = true) : dictHasKey (cxDepsPass obj s).nodes k = true :=
  foldl_preserve (fun s2 dep h2 => cxDepStep_nodesKey k s2 dep h2) _ s h

theorem cxFallbackStep_nodesKey (k : Json) (s : SBOM) (c : Json)
    (h : dictHasKey s.nodes k = true) : dictHasKey (cxFallbackStep s c).nodes k = true := by
  simp only [cxFallbackStep]
  apply foldl_preserve (P := fun s2 => dictHasKey s2.nodes k = true)
  · intro s2 child h2
    exact dictHasKey_dictSetdefault_of _ _ _ _ (dictHasKey_dictSetdefault_of _ _ _ _ h2)
  · exact h

theorem cxFallbackPass_nodesKey (obj : Json) (k : Json) (s : SBOM)
    (h : dictHasKey s.nodes k = true) : dictHasKey (cxFallbackPass obj s).nodes k = true := by
  simp only [cxFallbackPass]
  split
  · exact foldl_preserve (fun s2 c h2 => cxFallbackStep_nodesKey k s2 c h2) _ s h
  · exact h

theorem cxRootsPass_nodes (obj : Json) (s : SBOM) : (cxRootsPass obj s).nodes = s.nodes := by
  simp only [cxRootsPass]
  split <;> split <;> rfl

theorem cxRootsPass_edges (obj : Json) (s : SBOM) : (cxRootsPass obj s).edges = s.edges := by
  simp only [cxRootsPass]
  split <;> split <;> rfl

theorem cxSynthPass_nodes (obj : Json) (s : SBOM) : (cxSynthPass obj s).nodes = s.nodes := by
  simp only [cxSynthPass]
  split
  · split <;> rfl
  · rfl

theorem cxSynthPass_roots (obj : Json) (s : SBOM) : (cxSynthPass obj s).roots = s.roots := by
  simp only [cxSynthPass]
  split
  · split <;> rfl
  · rfl

theorem cxRootsPass_roots_override (obj : Json) (s : SBOM)
    (h : (cxRootId obj).truthy = true) : (cxRootsPass obj s).roots = [cxRootId obj] := by
  simp only [cxRootsPass]
  rw [if_pos h]

theorem cxMetaPass_rootKey (obj : Json) (s : SBOM) (h : (cxRootId obj).truthy = true) :
    dictHasKey (cxMetaPass obj s).nodes (cxRootId obj) = true := by
  have hmc : (cxMetaComp obj).truthy = true := by
    cases hmc : (cxMetaComp obj).truthy
    · simp only [cxRootId, hmc] at h
      simp [Json.truthy] at h
    · rfl
  have hrid : cxRootId obj = cxCompId (cxMetaComp obj) := by
    simp [cxRootId, hmc]
  rw [hrid] at h ⊢
  simp only [cxMetaPass, hmc]
  simp only [if_true]
  rw [if_pos h]
  exact dictHasKey_dictSetdefault_self _ _ _

theorem cxBeforeSynth_rootKey (obj : Json) (h : (cxRootId obj).truthy = true) :
    dictHasKey (cxBeforeSynth obj).nodes (cxRootId obj) = true := by
  rw [cxBeforeSynth, cxRootsPass_nodes, cxAfterDeps]
  apply cxFallbackPass_nodesKey
  apply cxDepsPass_nodesKey
  exact cxMetaPass_rootKey obj _ h

theorem hasKey_false_get_none {α : Type} {m : List (Json × α)} {k : Json}
    (h : dictHasKey m k = false) : dictGet m k = none := by
  unfold dictHasKey at h
  cases heq : dictGet m k with
  | none => rfl
  | some v => rw [heq] at h; simp at h

/-- C1: when `metadata.component` yields a derivable (truthy) id, the
normalized root set is exactly that declared root, every topologically
inferred candidate being discarded; and when the declared root has no
outgoing edges of its own, the synthesized child set of the declared root
consists of exactly the ids that are edge sources but not edge targets of
the pre-synthesis edge map, all other edge entries staying unchanged. -/
theorem c1_declared_root_override (obj : Json) (h : (cxRootId obj).truthy = true) :
    (fromCyclonedx obj).roots = [cxRootId obj]
    ∧ (dictHasKey (cxBeforeSynth obj).edges (cxRootId obj) = false →
        (∀ x, x ∈ (dictGet (fromCyclonedx obj).edges (cxRootId obj)).getD []
          ↔ (x ∈ edgeSources (cxBeforeSynth obj).edges
              ∧ x ∉ edgeTargets (cxBeforeSynth obj).edges))
        ∧ ∀ k, k ≠ cxRootId obj →
            dictGet (fromCyclonedx obj).edges k = dictGet (cxBeforeSynth obj).edges k) := by
  constructor
  · rw [fromCyclonedx, cxSynthPass_roots, cxBeforeSynth]
    exact cxRootsPass_roots_override obj _ h
  · intro hno
    have hguard : (cxRootId obj).truthy = true
        ∧ dictHasKey (cxBeforeSynth obj).nodes (cxRootId obj) = true
        ∧ ¬ dictHasKey (cxBeforeSynth obj).edges (cxRootId obj) = true :=
      ⟨h, cxBeforeSynth_rootKey obj h, by simp [hno]⟩
    rw [fromCyclonedx]
    simp only [cxSynthPass]
    rw [if_pos hguard]
    by_cases htl : pySortedIds ((edgeSources (cxBeforeSynth obj).edges).filter
        (fun r => decide (r ∉ edgeTargets (cxBeforeSynth obj).edges))) = []
    · rw [if_neg (by simpa using htl)]
      constructor
      · intro x
        rw [hasKey_false_get_none hno]
        simp only [Option.getD_none, List.not_mem_nil, false_iff]
        rintro ⟨hs, ht⟩
        have hx : x ∈ pySortedIds ((edgeSources (cxBeforeSynth obj).edges).filter
            (fun r => decide (r ∉ edgeTargets (cxBeforeSynth obj).edges))) := by
          rw [pySortedIds, mem_sortByKey]
          exact List.mem_filter.mpr ⟨hs, by simpa using ht⟩
        rw [htl] at hx
        simp at hx
      · intro k _
        rfl
    · rw [if_pos (by simpa using htl)]
      have habs : dictSet (cxBeforeSynth obj).edges (cxRootId obj)
          (pySortedIds ((edgeSources (cxBeforeSynth obj).edges).filter
            (fun r => decide (r ∉ edgeTargets (cxBeforeSynth obj).edges))))
          = (cxBeforeSynth obj).edges ++ [(cxRootId obj,
              pySortedIds ((edgeSources (cxBeforeSynth obj).edges).filter
                (fun r => decide (r ∉ edgeTargets (cxBeforeSynth obj).edges))))] :=
        dictSet_absent _ _ _ hno
      constructor
      · intro x
        show x ∈ (dictGet (dictSet (cxBeforeSynth obj).edges (cxRootId obj) _)
            (cxRootId obj)).getD [] ↔ _
        rw [habs, dictGet_append, hasKey_false_get_none hno]
        simp only [Option.none_or]
        have hone : dictGet [(cxRootId obj,
            pySortedIds ((edgeSources (cxBeforeSynth obj).edges).filter
              (fun r => decide (r ∉ edgeTargets (cxBeforeSynth obj).edges))))]
            (cxRootId obj)
            = some (pySortedIds ((edgeSources (cxBeforeSynth obj).edges).filter
              (fun r => decide (r ∉ edgeTargets (cxBeforeSynth obj).edges)))) := by
          simp [dictGet]
        rw [hone]
        simp only [Option.getD_some]
        rw [pySortedIds, mem_sortByKey]
        simp only [List.mem_filter, decide_eq_true_eq]
      · intro k hk
        show dictGet (dictSet (cxBeforeSynth obj).edges (cxRootId obj) _) k = _
        rw [habs, dictGet_append]
        have hnone : dictGet [(cxRootId obj,
            pySortedIds ((edgeSources (cxBeforeSynth obj).edges).filter
              (fun r => decide (r ∉ edgeTargets (cxBeforeSynth obj).edges))))] k
            = (none : Option (List Json)) := by
          simp only [dictGet]
          rw [if_neg (fun hh => hk hh.symm)]
        rw [hnone, Option.or_none]

/-- Witness for C1 at Scenario B: the declared root "root" overrides the
candidates and acquires the synthesized edge to "a". -/
theorem c1_witness :
    (fromCyclonedx docB).roots = [cxRootId docB]
    ∧ (jstr "a") ∈ (dictGet (fromCyclonedx docB).edges (cxRootId docB)).getD [] := by
  have h := c1_declared_root_override docB (by decide)
  refine ⟨h.1, ?_⟩
  exact ((h.2 (by decide)).1 (jstr "a")).mpr (by decide)

/-- C2: for an SPDX relationship with truthy source and target ids, a
normalized type in the reverse set adds exactly the edge target → source
(never source → target), a type in the forward set adds exactly
source → target, and any other type adds no edge. -/
theorem c2_spdx_edge_direction (s : SBOM) (rel : Json)
    (hs : (spdxSrc rel).truthy = true) (hd : (spdxDst rel).truthy = true) :
    (relNorm rel ∈ reverseTypes →
      ∀ a b, (a, b) ∈ edgePairs (spdxRelStep s rel).edges ↔
        ((a, b) ∈ edgePairs s.edges ∨ (a = spdxDst rel ∧ b = spdxSrc rel)))
    ∧ (relNorm rel ∈ forwardTypes →
      ∀ a b, (a, b) ∈ edgePairs (spdxRelStep s rel).edges ↔
        ((a, b) ∈ edgePairs s.edges ∨ (a = spdxSrc rel ∧ b = spdxDst rel)))
    ∧ (relNorm rel ∉ forwardTypes → relNorm rel ∉ reverseTypes →
      (spdxRelStep s rel).edges = s.edges) := by
  have hdisj : ∀ x ∈ reverseTypes, x ∉ forwardTypes := by decide
  refine ⟨?_, ?_, ?_⟩
  · intro hrev a b
    simp only [spdxRelStep]
    rw [if_pos ⟨hs, hd⟩, if_neg (hdisj _ hrev), if_pos hrev]
    exact mem_edgePairs_edgeAdd s.edges (spdxDst rel) (spdxSrc rel) a b
  · intro hfwd a b
    simp only [spdxRelStep]
    rw [if_pos ⟨hs, hd⟩, if_pos hfwd]
    exact mem_edgePairs_edgeAdd s.edges (spdxSrc rel) (spdxDst rel) a b
  · intro hnf hnr
    simp only [spdxRelStep]
    rw [if_pos ⟨hs, hd⟩, if_neg hnf, if_neg hnr]

/-- Witness for C2: a `DEV_DEPENDENCY_OF` relationship X → Y yields the
reversed edge Y → X on the empty graph. -/
theorem c2_witness :
    (jstr "Y", jstr "X") ∈
      edgePairs (spdxRelStep { nodes := [], edges := [], roots := [] } relRev).edges := by
  have h := (c2_spdx_edge_direction { nodes := [], edges := [], roots := [] } relRev
    (by decide) (by decide)).1 (by decide)
  exact (h (jstr "Y") (jstr "X")).mpr (Or.inr ⟨by decide, by decide⟩)

/-- C7: `from_json` dispatches by the ordered detection rule and fails with
the format error exactly when neither rule matches; on failure no graph is
produced (the result is the error alternative). -/
theorem c7_format_detection (obj : Json) :
    (cxMatch obj → from_json obj = Except.ok (fromCyclonedx obj))
    ∧ (¬ cxMatch obj → spdxMatch obj → from_json obj = Except.ok (fromSpdx obj))
    ∧ (isFormatError (from_json obj) = true ↔ (¬ cxMatch obj ∧ ¬ spdxMatch obj)) := by
  refine ⟨?_, ?_, ?_⟩
  · intro h
    rw [from_json, if_pos h]
  · intro h1 h2
    rw [from_json, if_neg h1, if_pos h2]
  · rw [from_json]
    by_cases h1 : cxMatch obj
    · rw [if_pos h1]
      simp [isFormatError, h1]
    · rw [if_neg h1]
      by_cases h2 : spdxMatch obj
      · rw [if_pos h2]
        simp [isFormatError, h1, h2]
      · rw [if_neg h2]
        simp [isFormatError, h1, h2]

/-- Witness for C7: Scenario A is detected as CycloneDX, and a bare string
is rejected with the format error. -/
theorem c7_witness :
    from_json docA = Except.ok (fromCyclonedx docA)
    ∧ isFormatError (from_json (Json.str "nope")) = true := by
  refine ⟨(c7_format_detection docA).1 (by decide), ?_⟩
  exact ((c7_format_detection (Json.str "nope")).2.2).mpr (by decide)

/-- C9: rendering never mutates the Graph: for any fuel, options and
arguments, the graph state threaded through `render`, `ascii_trees`, the
tree-structure builder, the DOT emitter and `build_forest` comes back
exactly as it went in. -/
theorem c9_renderers_frame (s : SBOM) :
    (∀ (showIds : Bool) (maxDepth : Option Nat) (incl : Bool) (fuel : Nat) (node : Json)
      (pref : Str) (seen : List Json) (last : Bool) (depth : Nat) (vg : List Json),
      stAfterR (renderF showIds maxDepth incl fuel node pref seen last depth vg s) s = s)
    ∧ (∀ (showIds : Bool) (maxDepth : Option Nat) (incl : Bool) (fuel : Nat)
        (roots vg : List Json),
        stAfterR (asciiTreesF showIds maxDepth incl fuel roots vg s) s = s)
    ∧ (∀ (fuel : Nat) (node : Json) (seen : List Json),
        stAfterT (makeNodeF fuel node seen s) s = s)
    ∧ (∀ (fuel : Nat) (roots : List Json), stAfterT (to_d3_treeF fuel roots s) s = s)
    ∧ (∀ (fuel : Nat) (roots : List Json), (toDotF fuel roots s).2 = s)
    ∧ (∀ startIds : List Json, (buildForestSt s startIds).2 = s) := by
  refine ⟨?_, ?_, ?_, ?_, ?_, ?_⟩
  · intro showIds maxDepth incl fuel node pref seen last depth vg
    rcases heq : renderF showIds maxDepth incl fuel node pref seen last depth vg s with _ | r
    · rfl
    · exact renderF_st _ _ _ _ _ _ _ _ _ _ _ _ heq
  · intro showIds maxDepth incl fuel roots vg
    rcases heq : asciiTreesF showIds maxDepth incl fuel roots vg s with _ | r
    · rfl
    · exact asciiTreesF_st _ _ _ _ _ _ _ _ heq
  · intro fuel node seen
    rcases heq : makeNodeF fuel node seen s with _ | r
    · rfl
    · exact makeNodeF_st _ _ _ _ _ heq
  · intro fuel roots
    rcases heq : to_d3_treeF fuel roots s with _ | r
    · rfl
    · exact to_d3_treeF_st _ _ _ _ heq
  · intro fuel roots
    exact toDotF_st fuel roots s
  · intro startIds
    rfl

/-! ### Lemmas: the Graph invariants through every normalizer pass -/

theorem edgeSources_append (e e' : List (Json × List Json)) :
    edgeSources (e ++ e') = edgeSources e ++ edgeSources e' := by
  simp [edgeSources]

theorem edgeTargets_append (e e' : List (Json × List Json)) :
    edgeTargets (e ++ e') = edgeTargets e ++ edgeTargets e' := by
  simp [edgeTargets]

theorem graphInv_nodes_extend {s : SBOM} {nodes2 : List (Json × Json)}
    (hmono : ∀ k, dictHasKey s.nodes k = true → dictHasKey nodes2 k = true)
    (h : graphInv s) : graphInv { s with nodes := nodes2 } :=
  ⟨fun k hk => hmono k (h.1 k hk), fun t ht => hmono t (h.2.1 t ht),
   fun r hr => hmono r (h.2.2 r hr)⟩

theorem graphInv_empty : graphInv { nodes := [], edges := [], roots := [] } := by
  refine ⟨?_, ?_, ?_⟩ <;> intro k hk <;> simp [edgeSources, edgeTargets] at hk

theorem graphInv_cxCompsPass (obj : Json) : graphInv (cxCompsPass obj) := by
  apply foldl_preserve (P := graphInv)
  · intro s c h
    dsimp only
    split
    · exact graphInv_nodes_extend (fun k hk => dictHasKey_dictSet_of _ _ _ _ hk) h
    · exact h
  · exact graphInv_empty

theorem graphInv_cxMetaPass (obj : Json) (s : SBOM) (h : graphInv s) :
    graphInv (cxMetaPass obj s) := by
  simp only [cxMetaPass]
  split
  · split
    · refine ⟨?_, ?_, ?_⟩
      · intro k hk
        exact dictHasKey_dictSetdefault_of _ _ _ _ (h.1 k hk)
      · intro t ht
        exact dictHasKey_dictSetdefault_of _ _ _ _ (h.2.1 t ht)
      · intro r hr
        rcases (mem_setAdd _ _ _).mp hr with h2 | h2
        · exact dictHasKey_dictSetdefault_of _ _ _ _ (h.2.2 r h2)
        · rw [h2]
          exact dictHasKey_dictSetdefault_self _ _ _
    · exact h
  · exact h

theorem graphInv_cxDepStep (s : SBOM) (dep : Json) (h : graphInv s) :
    graphInv (cxDepStep s dep) := by
  simp only [cxDepStep]
  split
  · have hfold := @foldl_preserve _
      (fun s2 => graphInv s2 ∧ dictHasKey s2.nodes (dep.get "ref") = true)
      (fun s2 child =>
        if child.truthy = true then
          { s2 with nodes := dictSetdefault s2.nodes child child,
                    edges := edgeAdd s2.edges (dep.get "ref") child }
        else s2)
      ?step ((dep.get "dependsOn").items)
      { s with nodes := dictSetdefault s.nodes (dep.get "ref") (dep.get "ref") } ?init
    case step =>
      intro s2 child h2
      dsimp only
      split
      · constructor
        · refine ⟨?_, ?_, ?_⟩
          · intro k hk
            rcases (mem_edgeSources_edgeAdd _ _ _ _).mp hk with h3 | h3
            · exact dictHasKey_dictSetdefault_of _ _ _ _ (h2.1.1 k h3)
            · rw [h3]
              exact dictHasKey_dictSetdefault_of _ _ _ _ h2.2
          · intro t ht
            rcases (mem_edgeTargets_edgeAdd _ _ _ _).mp ht with h3 | h3
            · exact dictHasKey_dictSetdefault_of _ _ _ _ (h2.1.2.1 t h3)
            · rw [h3]
              exact dictHasKey_dictSetdefault_self _ _ _
          · intro r hr
            exact dictHasKey_dictSetdefault_of _ _ _ _ (h2.1.2.2 r hr)
        · exact dictHasKey_dictSetdefault_of _ _ _ _ h2.2
      · exact h2
    case init =>
      exact ⟨graphInv_nodes_extend (fun k hk => dictHasKey_dictSetdefault_of _ _ _ _ hk) h,
        dictHasKey_dictSetdefault_self _ _ _⟩
    exact hfold.1
  · exact h

theorem graphInv_cxDepsPass (obj : Json) (s : SBOM) (h : graphInv s) :
    graphInv (cxDepsPass obj s) :=
  foldl_preserve (fun s2 dep h2 => graphInv_cxDepStep s2 dep h2) _ s h

theorem graphInv_cxFallbackStep (s : SBOM) (c : Json) (h : graphInv s) :
    graphInv (cxFallbackStep s c) := by
  simp only [cxFallbackStep]
  apply foldl_preserve (P := graphInv)
  · intro s2 child h2
    refine ⟨?_, ?_, ?_⟩
    · intro k hk
      rcases (mem_edgeSources_edgeAdd _ _ _ _).mp hk with h3 | h3
      · exact dictHasKey_dictSetdefault_of _ _ _ _
          (dictHasKey_dictSetdefault_of _ _ _ _ (h2.1 k h3))
      · rw [h3]
        exact dictHasKey_dictSetdefault_of _ _ _ _ (dictHasKey_dictSetdefault_self _ _ _)
    · intro t ht
      rcases (mem_edgeTargets_edgeAdd _ _ _ _).mp ht with h3 | h3
      · exact dictHasKey_dictSetdefault_of _ _ _ _
          (dictHasKey_dictSetdefault_of _ _ _ _ (h2.2.1 t h3))
      · rw [h3]
        exact dictHasKey_dictSetdefault_self _ _ _
    · intro r hr
      exact dictHasKey_dictSetdefault_of _ _ _ _
        (dictHasKey_dictSetdefault_of _ _ _ _ (h2.2.2 r hr))
  · exact h

theorem graphInv_cxFallbackPass (obj : Json) (s : SBOM) (h : graphInv s) :
    graphInv (cxFallbackPass obj s) := by
  simp only [cxFallbackPass]
  split
  · exact foldl_preserve (fun s2 c h2 => graphInv_cxFallbackStep s2 c h2) _ s h
  · exact h

theorem cxRootsPass_roots_mem (obj : Json) (s : SBOM) (r : Json)
    (hr : r ∈ (cxRootsPass obj s).roots) :
    (r ∈ s.roots ∨ r ∈ s.nodes.map (fun p => p.1)) ∨
      ((cxRootId obj).truthy = true ∧ r = cxRootId obj) := by
  simp only [cxRootsPass] at hr
  split at hr
  · rename_i htr
    simp only [List.mem_singleton] at hr
    exact Or.inr ⟨htr, hr⟩
  · split at hr
    · rcases mem_foldl_setAdd _ _ _ hr with h2 | h2
      · exact Or.inl (Or.inl h2)
      · exact Or.inl (Or.inr (List.mem_filter.mp h2).1)
    · exact Or.inl (Or.inl hr)

theorem graphInv_cxRootsPass (obj : Json) (s : SBOM) (h : graphInv s)
    (hrid : (cxRootId obj).truthy = true → dictHasKey s.nodes (cxRootId obj) = true) :
    graphInv (cxRootsPass obj s) := by
  refine ⟨?_, ?_, ?_⟩
  · intro k hk
    rw [cxRootsPass_edges] at hk
    rw [cxRootsPass_nodes]
    exact h.1 k hk
  · intro t ht
    rw [cxRootsPass_edges] at ht
    rw [cxRootsPass_nodes]
    exact h.2.1 t ht
  · intro r hr
    rw [cxRootsPass_nodes]
    rcases cxRootsPass_roots_mem obj s r hr with (h2 | h2) | ⟨htr, h2⟩
    · exact h.2.2 r h2
    · exact mem_keys_hasKey h2
    · rw [h2]
      exact hrid htr

theorem graphInv_cxSynthPass (obj : Json) (s : SBOM) (h : graphInv s) :
    graphInv (cxSynthPass obj s) := by
  simp only [cxSynthPass]
  split
  · rename_i hg
    split
    · have hnokey : dictHasKey s.edges (cxRootId obj) = false := by
        cases hk : dictHasKey s.edges (cxRootId obj)
        · rfl
        · exact absurd hk hg.2.2
      have habs := dictSet_absent s.edges (cxRootId obj)
        (pySortedIds ((edgeSources s.edges).filter
          (fun r => decide (r ∉ edgeTargets s.edges)))) hnokey
      refine ⟨?_, ?_, ?_⟩
      · intro k hk
        show dictHasKey s.nodes k = true
        rw [show (dictSet s.edges (cxRootId obj) _) = _ from habs, edgeSources_append] at hk
        rcases List.mem_append.mp hk with h2 | h2
        · exact h.1 k h2
        · simp only [edgeSources, List.map_cons, List.map_nil, List.mem_singleton] at h2
          rw [h2]
          exact hg.2.1
      · intro t ht
        show dictHasKey s.nodes t = true
        rw [show (dictSet s.edges (cxRootId obj) _) = _ from habs, edgeTargets_append] at ht
        rcases List.mem_append.mp ht with h2 | h2
        · exact h.2.1 t h2
        · simp only [edgeTargets, List.map_cons, List.map_nil, List.flatten_cons,
            List.flatten_nil, List.append_nil] at h2
          rw [pySortedIds, mem_sortByKey] at h2
          exact h.1 t (List.mem_filter.mp h2).1
      · intro r hr
        exact h.2.2 r hr
    · exact h
  · exact h

theorem graphInv_spdxPkgsPass (obj : Json) : graphInv (spdxPkgsPass obj) := by
  apply foldl_preserve (P := graphInv)
  · intro s pkg h
    dsimp only
    split
    · exact graphInv_nodes_extend (fun k hk => dictHasKey_dictSet_of _ _ _ _ hk) h
    · exact h
  · exact graphInv_empty

theorem graphInv_spdxRelStep (s : SBOM) (rel : Json) (h : graphInv s) :
    graphInv (spdxRelStep s rel) := by
  simp only [spdxRelStep]
  split
  · have hboth : ∀ x, dictHasKey
        (dictSetdefault (dictSetdefault s.nodes (spdxSrc rel) (spdxSrc rel))
          (spdxDst rel) (spdxDst rel)) x = true
        → True := fun _ _ => trivial
    have hsrc : dictHasKey
        (dictSetdefault (dictSetdefault s.nodes (spdxSrc rel) (spdxSrc rel))
          (spdxDst rel) (spdxDst rel)) (spdxSrc rel) = true :=
      dictHasKey_dictSetdefault_of _ _ _ _ (dictHasKey_dictSetdefault_self _ _ _)
    have hdst : dictHasKey
        (dictSetdefault (dictSetdefault s.nodes (spdxSrc rel) (spdxSrc rel))
          (spdxDst rel) (spdxDst rel)) (spdxDst rel) = true :=
      dictHasKey_dictSetdefault_self _ _ _
    have hold : ∀ x, dictHasKey s.nodes x = true → dictHasKey
        (dictSetdefault (dictSetdefault s.nodes (spdxSrc rel) (spdxSrc rel))
          (spdxDst rel) (spdxDst rel)) x = true :=
      fun x hx => dictHasKey_dictSetdefault_of _ _ _ _ (dictHasKey_dictSetdefault_of _ _ _ _ hx)
    split
    · refine ⟨?_, ?_, ?_⟩
      · intro k hk
        rcases (mem_edgeSources_edgeAdd _ _ _ _).mp hk with h3 | h3
        · exact hold k (h.1 k h3)
        · rw [h3]; exact hsrc
      · intro t ht
        rcases (mem_edgeTargets_edgeAdd _ _ _ _).mp ht with h3 | h3
        · exact hold t (h.2.1 t h3)
        · rw [h3]; exact hdst
      · intro r hr
        exact hold r (h.2.2 r hr)
    · split
      · refine ⟨?_, ?_, ?_⟩
        · intro k hk
          rcases (mem_edgeSources_edgeAdd _ _ _ _).mp hk with h3 | h3
          · exact hold k (h.1 k h3)
          · rw [h3]; exact hdst
        · intro t ht
          rcases (mem_edgeTargets_edgeAdd _ _ _ _).mp ht with h3 | h3
          · exact hold t (h.2.1 t h3)
          · rw [h3]; exact hsrc
        · intro r hr
          exact hold r (h.2.2 r hr)
      · exact ⟨fun k hk => hold k (h.1 k hk), fun t ht => hold t (h.2.1 t ht),
          fun r hr => hold r (h.2.2 r hr)⟩
  · exact h

theorem graphInv_spdxDescPass (obj : Json) (s : SBOM) (h : graphInv s) :
    graphInv (spdxDescPass obj s) := by
  simp only [spdxDescPass]
  have h1 : graphInv ((spdxDescList obj).foldl
      (fun s2 rid => if dictHasKey s2.nodes rid = true
        then { s2 with roots := setAdd s2.roots rid } else s2) s) := by
    apply foldl_preserve (P := graphInv)
    · intro s2 rid h2
      split
      · rename_i hkey
        refine ⟨h2.1, h2.2.1, ?_⟩
        intro r hr
        rcases (mem_setAdd _ _ _).mp hr with h3 | h3
        · exact h2.2.2 r h3
        · rw [h3]; exact hkey
      · exact h2
    · exact h
  split
  · refine ⟨h1.1, h1.2.1, ?_⟩
    intro r hr
    simp only [List.mem_filter] at hr
    exact mem_keys_hasKey hr.1
  · exact h1

/-- C6: both normalizers establish the Graph invariants: every id occurring
in the edge map as a source or target is a key of the node map, and the
candidate root set is a subset of the node map's keys. -/
theorem c6_graph_invariants (obj : Json) :
    graphInv (fromCyclonedx obj) ∧ graphInv (fromSpdx obj) := by
  constructor
  · rw [fromCyclonedx, cxBeforeSynth, cxAfterDeps]
    apply graphInv_cxSynthPass
    apply graphInv_cxRootsPass
    · exact graphInv_cxFallbackPass _ _
        (graphInv_cxDepsPass _ _ (graphInv_cxMetaPass _ _ (graphInv_cxCompsPass obj)))
    · intro htr
      have hk := cxBeforeSynth_rootKey obj htr
      rw [cxBeforeSynth, cxRootsPass_nodes, cxAfterDeps] at hk
      exact hk
  · rw [fromSpdx]
    apply graphInv_spdxDescPass
    exact foldl_preserve (fun s2 rel h2 => graphInv_spdxRelStep s2 rel h2) _ _
      (graphInv_spdxPkgsPass obj)

/-- Witness for C6: the invariants hold on the Scenario A graph and on an
SPDX document with an undeclared relationship target. -/
theorem c6_witness : graphInv (fromCyclonedx docA) ∧ graphInv (fromSpdx docA) :=
  c6_graph_invariants docA

/-- C3: the depth-first traversals terminate on every graph, cycles of any
length (self-loops included) notwithstanding: with the canonical fuel
bound neither the ASCII renderer nor the tree-structure builder ever runs
out of fuel, and a node already on the current ancestor path yields only
the cycle marker, with no recursion below it. -/
theorem c3_traversals_terminate (s : SBOM) (roots : List Json) (showIds : Bool)
    (maxDepth : Option Nat) (includeDupes : Bool) :
    (ascii_trees s roots showIds maxDepth includeDupes).isSome = true
    ∧ (to_d3_tree s roots).isSome = true
    ∧ (∀ (fuel : Nat) (node : Json) (pref : Str) (seen : List Json) (last : Bool)
        (depth : Nat) (vg : List Json) (st : SBOM),
        node ∈ seen → depthHit maxDepth depth = false →
        renderF showIds maxDepth includeDupes (fuel + 1) node pref seen last depth vg st =
          some ([pref ++ (if depth > 0 then "+-- ".data else ([] : Str)) ++
              (if showIds then Json.pyStr ((dictGet st.nodes node).getD node) ++ " <".data
                ++ Json.pyStr node ++ ">".data
               else Json.pyStr ((dictGet st.nodes node).getD node)),
            pref ++ (if last then "    ".data else "|   ".data) ++ "+-- (cycle)".data],
            vg, st))
    ∧ (∀ (fuel : Nat) (node : Json) (seen : List Json) (st : SBOM), node ∈ seen →
        makeNodeF (fuel + 1) node seen st =
          some (D3Tree.node (Json.pyStr ((dictGet st.nodes node).getD node) ++ " ↺".data) [],
            st)) := by
  refine ⟨?_, ?_, ?_, ?_⟩
  · rw [ascii_trees]
    have h := asciiTreesF_suff showIds maxDepth includeDupes roots [] s
    rcases heq : asciiTreesF showIds maxDepth includeDupes (traversalFuel s) roots [] s
      with _ | r
    · rw [heq] at h; simp at h
    · rfl
  · rw [to_d3_tree]
    have h := to_d3_treeF_suff roots s
    rcases heq : to_d3_treeF (traversalFuel s) roots s with _ | r
    · rw [heq] at h; simp at h
    · rfl
  · intro fuel node pref seen last depth vg st hseen hdh
    simp only [renderF, nodesGetSt]
    rw [if_neg (by simp [hdh]), if_pos hseen]
  · intro fuel node seen st hseen
    simp only [makeNodeF, nodesGetSt]
    rw [if_pos hseen]

/-- Witness for C3 on the two-node cycle: rendering succeeds, and the
repeated ancestor "a" produces exactly the node line plus the cycle
marker. -/
theorem c3_witness :
    (ascii_trees exCyc [jstr "a"] false none false).isSome = true
    ∧ renderF false none false 1 (jstr "a") [] [jstr "a"] true 1 [] exCyc =
        some (["+-- a".data, "    +-- (cycle)".data], [], exCyc) := by
  constructor
  · exact (c3_traversals_terminate exCyc [jstr "a"] false none false).1
  · have h := (c3_traversals_terminate exCyc [jstr "a"] false none false).2.2.1 0 (jstr "a")
      [] [jstr "a"] true 1 [] exCyc (by decide) (by decide)
    rw [h]
    decide

/-- Counterexample to C4 as stated: in the graph built from `docTie` the
children "b" and "a" of "r" carry the same label "x", yet every traversal
emits id "b" before id "a" — equal labels are not tie-broken by ascending
id, and the ASCII output shows the same order. -/
theorem c4_counterexample :
    labelKey (fromCyclonedx docTie) (jstr "b") = labelKey (fromCyclonedx docTie) (jstr "a")
    ∧ sortedChildren (fromCyclonedx docTie) (jstr "r") = [jstr "b", jstr "a"]
    ∧ sortedChildren (fromCyclonedx docTie) (jstr "r") ≠ [jstr "a", jstr "b"]
    ∧ ascii_trees (fromCyclonedx docTie) [jstr "r"] true none false =
        some ["r <r>".data, "    +-- x <b>".data, "    +-- x <a>".data, []] := by
  refine ⟨by decide, by decide, by decide, by decide⟩

/-- C4 amended: at every node the traversals visit the stored child set in
ascending order of lowercased label via a stable sort — the visited list
is a permutation of the stored child set and is sorted by the label key,
children with equal keys keeping the stored (set-enumeration) order, with
no id tie-break; without explicit requested roots the root list is sorted
by the same key; the ASCII renderer and the tree-structure builder both
expand exactly this sorted child list; the DOT emitter instead orders a
source's children by plain id. -/
theorem c4_amended (s : SBOM) (n : Json) :
    (sortedChildren s n).Perm ((dictGet s.edges n).getD [])
    ∧ (sortedChildren s n).Pairwise (keyLe (labelKey s))
    ∧ build_forest s [] = sortByKey (labelKey s) s.roots
    ∧ (∀ (showIds : Bool) (maxDepth : Option Nat) (incl : Bool) (fuel : Nat) (pref : Str)
        (seen : List Json) (last : Bool) (depth : Nat) (vg : List Json),
        n ∉ seen → depthHit maxDepth depth = false →
        renderF showIds maxDepth incl (fuel + 1) n pref seen last depth vg s =
          (match renderKidsAux incl (renderF showIds maxDepth incl fuel) (sortedChildren s n)
              (pref ++ (if last then "    ".data else "|   ".data)) (seen ++ [n]) (depth + 1)
              vg s with
            | none => none
            | some (ls, vg2, st2) =>
              some ((pref ++ (if depth > 0 then "+-- ".data else ([] : Str)) ++
                (if showIds then Json.pyStr ((dictGet s.nodes n).getD n) ++ " <".data
                  ++ Json.pyStr n ++ ">".data
                 else Json.pyStr ((dictGet s.nodes n).getD n))) :: ls, vg2, st2)))
    ∧ (∀ (fuel : Nat) (seen : List Json), n ∉ seen →
        makeNodeF (fuel + 1) n seen s =
          (match d3KidsAux (makeNodeF fuel) (sortedChildren s n) (seen ++ [n]) s with
            | none => none
            | some (ts, st2) =>
              some (D3Tree.node (Json.pyStr ((dictGet s.nodes n).getD n)) ts, st2)))
    ∧ (∀ (reach srcs : List Json) (st : SBOM),
        dotEdgeLinesF reach (n :: srcs) st =
          ((((pySortedIds ((dictGet st.edges n).getD [])).filter
              (fun d => decide (d ∈ reach))).map
            (fun d => "  \"".data ++ Json.pyStr n ++ "\" -> \"".data ++ Json.pyStr d
              ++ "\";".data))
            ++ (dotEdgeLinesF reach srcs st).1, (dotEdgeLinesF reach srcs st).2)) := by
  refine ⟨?_, ?_, ?_, ?_, ?_, ?_⟩
  · rw [sortedChildren]
    exact perm_sortByKey _ _
  · rw [sortedChildren]
    exact sorted_sortByKey _ _
  · rw [build_forest, if_neg (by simp)]
  · intro showIds maxDepth incl fuel pref seen last depth vg hseen hdh
    simp only [renderF, nodesGetSt, edgesGetSt, sortedChildren]
    rw [if_neg (by simp [hdh]), if_neg hseen]
  · intro fuel seen hseen
    simp only [makeNodeF, nodesGetSt, edgesGetSt, sortedChildren]
    rw [if_neg hseen]
  · intro reach srcs st
    simp only [dotEdgeLinesF, edgesGetSt]

/-- Witness for C4 amended, at the tied-label graph: the tree builder at
"r" expands exactly the sorted child list. -/
theorem c4_witness :
    makeNodeF 4 (jstr "r") [] (fromCyclonedx docTie) =
      (match d3KidsAux (makeNodeF 3) (sortedChildren (fromCyclonedx docTie) (jstr "r"))
          ([] ++ [jstr "r"]) (fromCyclonedx docTie) with
        | none => none
        | some (ts, st2) =>
          some (D3Tree.node (Json.pyStr
            ((dictGet (fromCyclonedx docTie).nodes (jstr "r")).getD (jstr "r"))) ts, st2)) :=
  (c4_amended (fromCyclonedx docTie) (jstr "r")).2.2.2.2.1 3 [] (by decide)

/-! ### Lemmas: with full duplication the visited set does not affect output -/

theorem renderKidsAux_dupes_vg (showIds : Bool) (maxDepth : Option Nat) (fuel : Nat)
    (ih : ∀ (node : Json) (pref : Str) (seen : List Json) (last : Bool) (depth : Nat)
      (vg1 vg2 : List Json) (st : SBOM),
      Option.map (fun r => r.1)
        (renderF showIds maxDepth true fuel node pref seen last depth vg1 st)
      = Option.map (fun r => r.1)
        (renderF showIds maxDepth true fuel node pref seen last depth vg2 st)) :
    ∀ (cs : List Json) (np : Str) (seen : List Json) (depth : Nat) (vg1 vg2 : List Json)
      (st : SBOM),
      Option.map (fun r => r.1)
        (renderKidsAux true (renderF showIds maxDepth true fuel) cs np seen depth vg1 st)
      = Option.map (fun r => r.1)
        (renderKidsAux true (renderF showIds maxDepth true fuel) cs np seen depth vg2 st) := by
  intro cs
  induction cs with
  | nil => intro np seen depth vg1 vg2 st; rfl
  | cons child rest ihc =>
    intro np seen depth vg1 vg2 st
    simp only [renderKidsAux]
    rw [if_neg (by simp), if_neg (by simp)]
    have h1 := ih child np seen rest.isEmpty depth (setAdd vg1 child) (setAdd vg2 child) st
    rcases heq1 : renderF showIds maxDepth true fuel child np seen rest.isEmpty depth
        (setAdd vg1 child) st with _ | r1 <;>
      rcases heq2 : renderF showIds maxDepth true fuel child np seen rest.isEmpty depth
        (setAdd vg2 child) st with _ | r2
    · rfl
    · rw [heq1, heq2] at h1; simp at h1
    · rw [heq1, heq2] at h1; simp at h1
    · rw [heq1, heq2] at h1
      rcases r1 with ⟨ls1, vga, sta⟩
      rcases r2 with ⟨ls2, vgb, stb⟩
      have hls : ls1 = ls2 := by simpa using h1
      have hsta : sta = st := renderF_st _ _ _ _ _ _ _ _ _ _ _ _ heq1
      have hstb : stb = st := renderF_st _ _ _ _ _ _ _ _ _ _ _ _ heq2
      rw [hsta, hstb, ← hls]
      have h2 := ihc np seen depth vga vgb st
      show Option.map (fun r => r.1)
          (match renderKidsAux true (renderF showIds maxDepth true fuel) rest np seen depth
              vga st with
            | none => none
            | some (ls2, vg3, st3) => some (ls1 ++ ls2, vg3, st3))
        = Option.map (fun r => r.1)
          (match renderKidsAux true (renderF showIds maxDepth true fuel) rest np seen depth
              vgb st with
            | none => none
            | some (ls2, vg3, st3) => some (ls1 ++ ls2, vg3, st3))
      rcases hq1 : renderKidsAux true (renderF showIds maxDepth true fuel) rest np seen depth
          vga st with _ | q1 <;>
        rcases hq2 : renderKidsAux true (renderF showIds maxDepth true fuel) rest np seen depth
          vgb st with _ | q2
      · rfl
      · rw [hq1, hq2] at h2; simp at h2
      · rw [hq1, hq2] at h2; simp at h2
      · rw [hq1, hq2] at h2
        rcases q1 with ⟨l1, v1, s1⟩
        rcases q2 with ⟨l2, v2, s2⟩
        have : l1 = l2 := by simpa using h2
        simp [this]

theorem renderF_dupes_vg (showIds : Bool) (maxDepth : Option Nat) :
    ∀ (fuel : Nat) (node : Json) (pref : Str) (seen : List Json) (last : Bool) (depth : Nat)
      (vg1 vg2 : List Json) (st : SBOM),
      Option.map (fun r => r.1)
        (renderF showIds maxDepth true fuel node pref seen last depth vg1 st)
      = Option.map (fun r => r.1)
        (renderF showIds maxDepth true fuel node pref seen last depth vg2 st) := by
  intro fuel
  induction fuel with
  | zero => intro node pref seen last depth vg1 vg2 st; rfl
  | succ fuel ih =>
    intro node pref seen last depth vg1 vg2 st
    simp only [renderF, nodesGetSt, edgesGetSt]
    split
    · rfl
    · split
      · rfl
      · have h := renderKidsAux_dupes_vg showIds maxDepth fuel ih
          (sortByKey (labelKey st) ((dictGet st.edges node).getD []))
          (pref ++ (if last then "    ".data else "|   ".data)) (seen ++ [node]) (depth + 1)
          vg1 vg2 st
        rcases hq1 : renderKidsAux true (renderF showIds maxDepth true fuel)
            (sortByKey (labelKey st) ((dictGet st.edges node).getD []))
            (pref ++ (if last then "    ".data else "|   ".data)) (seen ++ [node]) (depth + 1)
            vg1 st with _ | q1 <;>
          rcases hq2 : renderKidsAux true (renderF showIds maxDepth true fuel)
            (sortByKey (labelKey st) ((dictGet st.edges node).getD []))
            (pref ++ (if last then "    ".data else "|   ".data)) (seen ++ [node]) (depth + 1)
            vg2 st with _ | q2
        · rfl
        · rw [hq1, hq2] at h; simp at h
        · rw [hq1, hq2] at h; simp at h
        · rw [hq1, hq2] at h
          rcases q1 with ⟨l1, v1, s1⟩
          rcases q2 with ⟨l2, v2, s2⟩
          have : l1 = l2 := by simpa using h
          simp [this]

/-- Counterexample to C5 as stated: node "a" is first reached as a root of
`exShared` and rendered in full, but roots are never marked in the global
visited set, so the second reference to "a" (as child of root "c", not on
the ancestor path) is expanded again in full instead of being rendered as
a one-line "(seen)" reference: no "(seen)" line occurs in the output. -/
theorem c5_counterexample :
    ascii_trees exShared (build_forest exShared [jstr "a", jstr "c"]) false none false =
      some ["a".data, [], "c".data, "    +-- a".data, []]
    ∧ "    +-- a  (seen)".data ∉
        (["a".data, [], "c".data, "    +-- a".data, []] : List Str) :=
  ⟨by decide, by decide⟩

/-- C5 amended: the visited-set collapsing applies to nodes reached as
children (roots themselves are never marked): without full duplication a
child already in the global visited set is emitted as a single "(seen)"
line with no recursion and no change to the visited set; a child not yet
visited is marked and rendered in full; and with full duplication
requested the emitted lines are entirely independent of the visited set,
every occurrence being expanded (bounded only by the cycle policy). -/
theorem c5_amended (showIds : Bool) (maxDepth : Option Nat) (fuel : Nat) :
    (∀ (incl : Bool) (child : Json) (rest : List Json) (np : Str) (seen : List Json)
      (depth : Nat) (vg : List Json) (st : SBOM),
      incl = false → child ∈ vg →
      renderKidsAux incl (renderF showIds maxDepth incl fuel) (child :: rest) np seen depth
          vg st
        = Option.map (fun r => ((np ++ "+-- ".data
            ++ Json.pyStr ((dictGet st.nodes child).getD child) ++ "  (seen)".data) :: r.1,
            r.2))
          (renderKidsAux incl (renderF showIds maxDepth incl fuel) rest np seen depth vg st))
    ∧ (∀ (incl : Bool) (child : Json) (rest : List Json) (np : Str) (seen : List Json)
        (depth : Nat) (vg : List Json) (st : SBOM),
        child ∉ vg →
        renderKidsAux incl (renderF showIds maxDepth incl fuel) (child :: rest) np seen depth
            vg st
          = (match renderF showIds maxDepth incl fuel child np seen rest.isEmpty depth
              (setAdd vg child) st with
            | none => none
            | some (ls1, vg2, st2) =>
              match renderKidsAux incl (renderF showIds maxDepth incl fuel) rest np seen depth
                  vg2 st2 with
              | none => none
              | some (ls2, vg3, st3) => some (ls1 ++ ls2, vg3, st3)))
    ∧ (∀ (node : Json) (pref : Str) (seen : List Json) (last : Bool) (depth : Nat)
        (vg1 vg2 : List Json) (st : SBOM),
        Option.map (fun r => r.1)
          (renderF showIds maxDepth true fuel node pref seen last depth vg1 st)
        = Option.map (fun r => r.1)
          (renderF showIds maxDepth true fuel node pref seen last depth vg2 st)) := by
  refine ⟨?_, ?_, ?_⟩
  · intro incl child rest np seen depth vg st hincl hvg
    subst hincl
    simp only [renderKidsAux, nodesGetSt]
    rw [if_pos ⟨trivial, hvg⟩]
    rcases hq : renderKidsAux false (renderF showIds maxDepth false fuel) rest np seen depth
        vg st with _ | ⟨ls, qvg, qst⟩
    · rfl
    · rfl
  · intro incl child rest np seen depth vg st hvg
    simp only [renderKidsAux, nodesGetSt]
    rw [if_neg (fun hc => hvg hc.2)]
  · intro node pref seen last depth vg1 vg2 st
    exact renderF_dupes_vg showIds maxDepth fuel node pref seen last depth vg1 vg2 st

/-- Witness for C5 amended: child "a", already in the visited set, is
emitted as the single "(seen)" line. -/
theorem c5_witness :
    renderKidsAux false (renderF false none false 5) [jstr "a"] "    ".data [jstr "c"] 1
        [jstr "a"] exShared
      = Option.map (fun r => (("    ".data ++ "+-- ".data
          ++ Json.pyStr ((dictGet exShared.nodes (jstr "a")).getD (jstr "a"))
          ++ "  (seen)".data) :: r.1, r.2))
        (renderKidsAux false (renderF false none false 5) [] "    ".data [jstr "c"] 1
          [jstr "a"] exShared) :=
  (c5_amended false none 5).1 false (jstr "a") [] "    ".data [jstr "c"] 1 [jstr "a"]
    exShared rfl (by decide)

/-! ### Lemmas: the inline fallback with an id-less component -/

theorem cxFallbackStep_adds (c : Json) (hid : cxCompId c = Json.null) :
    ∀ (s : SBOM) (child : Json), child ∈ (c.get "dependencies").items →
      (Json.null, child) ∈ edgePairs (cxFallbackStep s c).edges := by
  intro s child hchild
  simp only [cxFallbackStep, hid]
  exact foldl_reach
    (P := fun s2 => (Json.null, child) ∈ edgePairs s2.edges)
    (x := child)
    (fun s2 y h2 => (mem_edgePairs_edgeAdd _ _ _ _ _).mpr (Or.inl h2))
    (fun s2 => (mem_edgePairs_edgeAdd _ _ _ _ _).mpr (Or.inr ⟨rfl, rfl⟩))
    _ s hchild

theorem cxFallbackStep_nullkey (c : Json) (hid : cxCompId c = Json.null)
    (hne : (c.get "dependencies").items ≠ []) (s : SBOM) :
    dictHasKey (cxFallbackStep s c).nodes Json.null = true := by
  simp only [cxFallbackStep, hid]
  rcases hitems : (c.get "dependencies").items with _ | ⟨d, ds⟩
  · exact absurd hitems hne
  · rw [List.foldl_cons]
    apply foldl_preserve (P := fun s2 => dictHasKey s2.nodes Json.null = true)
    · intro s2 y h2
      exact dictHasKey_dictSetdefault_of _ _ _ _ (dictHasKey_dictSetdefault_of _ _ _ _ h2)
    · exact dictHasKey_dictSetdefault_of _ _ _ _ (dictHasKey_dictSetdefault_self _ _ _)

theorem cxFallbackStep_pairs_mono (s : SBOM) (c : Json) (p : Json × Json)
    (h : p ∈ edgePairs s.edges) : p ∈ edgePairs (cxFallbackStep s c).edges := by
  rcases p with ⟨a, b⟩
  simp only [cxFallbackStep]
  apply foldl_preserve (P := fun s2 => (a, b) ∈ edgePairs s2.edges)
  · intro s2 y h2
    exact (mem_edgePairs_edgeAdd _ _ _ _ _).mpr (Or.inl h2)
  · exact h

theorem cxSynthPass_pairs_mono (obj : Json) (s : SBOM) (p : Json × Json)
    (h : p ∈ edgePairs s.edges) : p ∈ edgePairs (cxSynthPass obj s).edges := by
  simp only [cxSynthPass]
  split
  · rename_i hg
    split
    · have hnokey : dictHasKey s.edges (cxRootId obj) = false := by
        cases hk : dictHasKey s.edges (cxRootId obj)
        · rfl
        · exact absurd hk hg.2.2
      show p ∈ edgePairs (dictSet s.edges (cxRootId obj) _)
      rw [dictSet_absent _ _ _ hnokey, edgePairs_append]
      exact List.mem_append.mpr (Or.inl h)
    · exact h
  · exact h

/-- C10: in the inline-dependency fallback a component with a non-empty
list-valued `dependencies` field but none of the id fields is not skipped:
the null id becomes a node of the final graph and every listed child gets
an edge from the null id. -/
theorem c10_null_id_fallback (obj c : Json)
    (hc : c ∈ (obj.get "components").items)
    (hnoedges : (cxAfterDeps obj).edges = [])
    (h1 : c.getRaw "bom-ref" = none) (h2 : c.getRaw "bomRef" = none)
    (h3 : c.getRaw "purl" = none) (h4 : c.getRaw "name" = none)
    (hdeps : (c.get "dependencies").items ≠ []) :
    dictHasKey (fromCyclonedx obj).nodes Json.null = true
    ∧ ∀ child ∈ (c.get "dependencies").items,
        (Json.null, child) ∈ edgePairs (fromCyclonedx obj).edges := by
  have hid : cxCompId c = Json.null := by
    simp [cxCompId, Json.get, h1, h2, h3, h4, Json.pyOr, Json.truthy]
  have hfb : ∀ child ∈ (c.get "dependencies").items,
      dictHasKey (cxFallbackPass obj (cxAfterDeps obj)).nodes Json.null = true
      ∧ (Json.null, child) ∈ edgePairs (cxFallbackPass obj (cxAfterDeps obj)).edges := by
    intro child hchild
    simp only [cxFallbackPass]
    rw [if_pos ⟨hnoedges, fun he => (by rw [he] at hc; simp at hc : False)⟩]
    exact foldl_reach
      (P := fun s2 => dictHasKey s2.nodes Json.null = true
        ∧ (Json.null, child) ∈ edgePairs s2.edges)
      (x := c)
      (fun s2 y hp => ⟨cxFallbackStep_nodesKey _ s2 y hp.1,
        cxFallbackStep_pairs_mono s2 y _ hp.2⟩)
      (fun s2 => ⟨cxFallbackStep_nullkey c hid hdeps s2, cxFallbackStep_adds c hid s2 child hchild⟩)
      _ _ hc
  rcases hitems : (c.get "dependencies").items with _ | ⟨d, ds⟩
  · exact absurd hitems hdeps
  · have hfirst := hfb d (by rw [hitems]; exact List.mem_cons_self _ _)
    constructor
    · rw [fromCyclonedx, cxSynthPass_nodes, cxBeforeSynth, cxRootsPass_nodes]
      exact hfirst.1
    · intro child hchild
      have hp := (hfb child (by rw [hitems]; exact hchild)).2
      apply cxSynthPass_pairs_mono
      rw [cxBeforeSynth]
      show (Json.null, child) ∈ edgePairs (cxRootsPass obj (cxFallbackPass obj (cxAfterDeps obj))).edges
      rw [cxRootsPass_edges]
      exact hp

/-- Witness for C10: the document whose single component has only an
inline dependency list produces the node with the null id and the edge
null → "x". -/
theorem c10_witness :
    dictHasKey (fromCyclonedx docNullId).nodes Json.null = true
    ∧ (Json.null, jstr "x") ∈ edgePairs (fromCyclonedx docNullId).edges := by
  have h := c10_null_id_fallback docNullId
    (mkObj [("dependencies", mkArr [jstr "x"])])
    (by decide) (by decide) (by decide) (by decide) (by decide) (by decide) (by decide)
  exact ⟨h.1, h.2 (jstr "x") (by decide)⟩

/-! ### Lemmas: duplicate-free shape of the edge map and of listed pairs -/

theorem foldl_preserve_gen {α β : Type} {P : α → Prop} {step : α → β → α}
    (h : ∀ a x, P a → P (step a x)) : ∀ (l : List β) (a : α), P a → P (l.foldl step a) := by
  intro l
  induction l with
  | nil => intro a ha; simpa using ha
  | cons x xs ih => intro a ha; simpa using ih _ (h a x ha)

theorem mem_addPair (a : List (Json × Json)) (p q : Json × Json) :
    q ∈ addPair a p ↔ (q ∈ a ∨ q = p) := by
  unfold addPair
  by_cases h : p ∈ a
  · rw [if_pos h]
    constructor
    · exact Or.inl
    · rintro (hq | hq)
      · exact hq
      · subst hq; exact h
  · rw [if_neg h]
    simp

theorem nodup_addPair (a : List (Json × Json)) (p : Json × Json) (h : a.Nodup) :
    (addPair a p).Nodup := by
  unfold addPair
  by_cases hp : p ∈ a
  · rw [if_pos hp]; exact h
  · rw [if_neg hp]
    simp [List.nodup_append, h, hp]

theorem edgesWf_nil : edgesWf [] := ⟨List.nodup_nil, by simp, by simp⟩

theorem edgesWf_edgeAdd (e : List (Json × List Json)) (src dst : Json) (h : edgesWf e) :
    edgesWf (edgeAdd e src dst) := by
  induction e with
  | nil =>
    refine ⟨by simp [edgeAdd, edgeSources], ?_, ?_⟩
    · intro p hp
      simp only [edgeAdd, List.mem_singleton] at hp
      subst hp
      simp
    · intro p hp
      simp only [edgeAdd, List.mem_singleton] at hp
      subst hp
      simp
  | cons pr rest ih =>
    rcases pr with ⟨k, cs⟩
    rcases h with ⟨hnd, hcs, hne⟩
    rw [show edgeSources ((k, cs) :: rest) = k :: edgeSources rest from rfl,
      List.nodup_cons] at hnd
    by_cases hk : k = src
    · subst hk
      rw [edgeAdd, if_pos rfl]
      refine ⟨?_, ?_, ?_⟩
      · rw [show edgeSources ((k, if dst ∈ cs then cs else cs ++ [dst]) :: rest)
            = k :: edgeSources rest from rfl]
        exact List.nodup_cons.mpr hnd
      · intro p hp
        rcases List.mem_cons.mp hp with hp | hp
        · subst hp
          by_cases hd : dst ∈ cs
          · rw [if_pos hd]
            exact hcs (k, cs) (List.mem_cons_self _ _)
          · rw [if_neg hd]
            simp [List.nodup_append, hcs (k, cs) (List.mem_cons_self _ _), hd]
        · exact hcs p (List.mem_cons_of_mem _ hp)
      · intro p hp
        rcases List.mem_cons.mp hp with hp | hp
        · subst hp
          show (if dst ∈ cs then cs else cs ++ [dst]) ≠ []
          by_cases hd : dst ∈ cs
          · rw [if_pos hd]
            exact hne (k, cs) (List.mem_cons_self _ _)
          · rw [if_neg hd]
            simp
        · exact hne p (List.mem_cons_of_mem _ hp)
    · rw [edgeAdd, if_neg hk]
      have hrest := ih ⟨hnd.2, fun p hp => hcs p (List.mem_cons_of_mem _ hp),
        fun p hp => hne p (List.mem_cons_of_mem _ hp)⟩
      refine ⟨?_, ?_, ?_⟩
      · rw [show edgeSources ((k, cs) :: edgeAdd rest src dst)
            = k :: edgeSources (edgeAdd rest src dst) from rfl]
        refine List.nodup_cons.mpr ⟨?_, hrest.1⟩
        intro hkmem
        rcases (mem_edgeSources_edgeAdd _ _ _ _).mp hkmem with h2 | h2
        · exact hnd.1 h2
        · exact hk h2
      · intro p hp
        rcases List.mem_cons.mp hp with hp | hp
        · subst hp
          exact hcs (k, cs) (List.mem_cons_self _ _)
        · exact hrest.2.1 p hp
      · intro p hp
        rcases List.mem_cons.mp hp with hp | hp
        · subst hp
          exact hne (k, cs) (List.mem_cons_self _ _)
        · exact hrest.2.2 p hp

theorem fst_mem_sources {e : List (Json × List Json)} {a b : Json}
    (h : (a, b) ∈ edgePairs e) : a ∈ edgeSources e := by
  rcases (mem_edgePairs_iff e a b).mp h with ⟨cs, hcs, _⟩
  exact List.mem_map.mpr ⟨(a, cs), hcs, rfl⟩

theorem edgePairs_nodup (e : List (Json × List Json)) (h : edgesWf e) :
    (edgePairs e).Nodup := by
  induction e with
  | nil => simp [edgePairs]
  | cons pr rest ih =>
    rcases pr with ⟨k, cs⟩
    rcases h with ⟨hnd, hcs, hne⟩
    rw [show edgeSources ((k, cs) :: rest) = k :: edgeSources rest from rfl,
      List.nodup_cons] at hnd
    rw [edgePairs_cons]
    rw [List.nodup_append]
    refine ⟨?_, ?_, ?_⟩
    · exact (hcs (k, cs) (List.mem_cons_self _ _)).map
        (fun c1 c2 hcc => by simpa using hcc)
    · exact ih ⟨hnd.2, fun p hp => hcs p (List.mem_cons_of_mem _ hp),
        fun p hp => hne p (List.mem_cons_of_mem _ hp)⟩
    · intro q hq hq2
      rcases List.mem_map.mp hq with ⟨c, hc, rfl⟩
      exact hnd.1 (fst_mem_sources hq2)

theorem pairs_nil_iff (e : List (Json × List Json)) (h : edgesWf e) :
    edgePairs e = [] ↔ e = [] := by
  constructor
  · intro hp
    cases e with
    | nil => rfl
    | cons pr rest =>
      rcases pr with ⟨k, cs⟩
      rw [edgePairs_cons] at hp
      rcases List.append_eq_nil.mp hp with ⟨h1, _⟩
      rw [List.map_eq_nil_iff] at h1
      exact absurd h1 (h.2.2 (k, cs) (List.mem_cons_self _ _))
  · intro hp
    subst hp
    rfl

theorem hasKey_mem_keys {α : Type} {m : List (Json × α)} {k : Json}
    (h : dictHasKey m k = true) : k ∈ m.map (fun p => p.1) := by
  unfold dictHasKey at h
  rcases heq : dictGet m k with _ | v
  · rw [heq] at h; simp at h
  · exact List.mem_map.mpr ⟨(k, v), dictGet_mem heq, rfl⟩

theorem pairs_child_fold (ref : Json) :
    ∀ (children : List Json) (s : SBOM) (acc : List (Json × Json)),
      (∀ q, q ∈ edgePairs s.edges ↔ q ∈ acc) →
      ∀ q, q ∈ edgePairs ((children.foldl (fun s2 child =>
          if child.truthy = true then
            { s2 with nodes := dictSetdefault s2.nodes child child,
                      edges := edgeAdd s2.edges ref child }
          else s2) s)).edges
        ↔ q ∈ children.foldl (fun a child =>
            if child.truthy = true then addPair a (ref, child) else a) acc := by
  intro children
  induction children with
  | nil => intro s acc hinv q; simpa using hinv q
  | cons child rest ih =>
    intro s acc hinv q
    simp only [List.foldl_cons]
    apply ih
    intro q2
    by_cases hct : child.truthy = true
    · rw [if_pos hct, if_pos hct]
      rcases q2 with ⟨a, b⟩
      show (a, b) ∈ edgePairs (edgeAdd s.edges ref child) ↔ _
      rw [mem_edgePairs_edgeAdd, mem_addPair, hinv (a, b)]
      simp [Prod.ext_iff]
    · rw [if_neg hct, if_neg hct]
      exact hinv q2

theorem pairs_cxDepStep (s : SBOM) (dep : Json) (acc : List (Json × Json))
    (hinv : ∀ q, q ∈ edgePairs s.edges ↔ q ∈ acc) :
    ∀ q, q ∈ edgePairs (cxDepStep s dep).edges ↔ q ∈ cxTopPairsStep acc dep := by
  intro q
  simp only [cxDepStep, cxTopPairsStep]
  split
  · exact pairs_child_fold (dep.get "ref") _
      { s with nodes := dictSetdefault s.nodes (dep.get "ref") (dep.get "ref") } acc
      (fun q2 => hinv q2) q
  · exact hinv q

theorem pairs_cxDepsPass :
    ∀ (deps : List Json) (s : SBOM) (acc : List (Json × Json)),
      (∀ q, q ∈ edgePairs s.edges ↔ q ∈ acc) →
      ∀ q, q ∈ edgePairs (deps.foldl cxDepStep s).edges
        ↔ q ∈ deps.foldl cxTopPairsStep acc := by
  intro deps
  induction deps with
  | nil => intro s acc hinv q; simpa using hinv q
  | cons dep rest ih =>
    intro s acc hinv q
    simp only [List.foldl_cons]
    exact ih _ _ (fun q2 => pairs_cxDepStep s dep acc hinv q2) q

theorem pairs_fb_child_fold (src : Json) :
    ∀ (children : List Json) (s : SBOM) (acc : List (Json × Json)),
      (∀ q, q ∈ edgePairs s.edges ↔ q ∈ acc) →
      ∀ q, q ∈ edgePairs ((children.foldl (fun s2 child =>
          { s2 with nodes := dictSetdefault (dictSetdefault s2.nodes src src) child child,
                    edges := edgeAdd s2.edges src child }) s)).edges
        ↔ q ∈ children.foldl (fun a2 child => addPair a2 (src, child)) acc := by
  intro children
  induction children with
  | nil => intro s acc hinv q; simpa using hinv q
  | cons child rest ih =>
    intro s acc hinv q
    simp only [List.foldl_cons]
    apply ih
    intro q2
    rcases q2 with ⟨a, b⟩
    show (a, b) ∈ edgePairs (edgeAdd s.edges src child) ↔ _
    rw [mem_edgePairs_edgeAdd, mem_addPair, hinv (a, b)]
    simp [Prod.ext_iff]

theorem pairs_cxFallbackSteps :
    ∀ (comps : List Json) (s : SBOM) (acc : List (Json × Json)),
      (∀ q, q ∈ edgePairs s.edges ↔ q ∈ acc) →
      ∀ q, q ∈ edgePairs (comps.foldl cxFallbackStep s).edges
        ↔ q ∈ comps.foldl (fun a c =>
            (c.get "dependencies").items.foldl
              (fun a2 child => addPair a2 (cxCompId c, child)) a) acc := by
  intro comps
  induction comps with
  | nil => intro s acc hinv q; simpa using hinv q
  | cons c rest ih =>
    intro s acc hinv q
    simp only [List.foldl_cons]
    apply ih
    intro q2
    simp only [cxFallbackStep]
    exact pairs_fb_child_fold (cxCompId c) _ _ _ (fun q3 => hinv q3) q2

theorem edgesWf_cxDepStep (s : SBOM) (dep : Json) (h : edgesWf s.edges) :
    edgesWf (cxDepStep s dep).edges := by
  simp only [cxDepStep]
  split
  · apply foldl_preserve (P := fun s2 => edgesWf s2.edges)
    · intro s2 child h2
      dsimp only
      split
      · exact edgesWf_edgeAdd _ _ _ h2
      · exact h2
    · exact h
  · exact h

theorem edgesWf_cxFallbackStep (s : SBOM) (c : Json) (h : edgesWf s.edges) :
    edgesWf (cxFallbackStep s c).edges := by
  simp only [cxFallbackStep]
  apply foldl_preserve (P := fun s2 => edgesWf s2.edges)
  · intro s2 child h2
    exact edgesWf_edgeAdd _ _ _ h2
  · exact h

theorem nodup_cxTopPairs (obj : Json) : (cxTopPairs obj).Nodup := by
  rw [cxTopPairs]
  apply foldl_preserve_gen (P := fun a => List.Nodup a)
  · intro a dep ha
    simp only [cxTopPairsStep]
    split
    · apply foldl_preserve_gen (P := fun a2 => List.Nodup a2)
      · intro a2 child h2
        dsimp only
        split
        · exact nodup_addPair _ _ h2
        · exact h2
      · exact ha
    · exact ha
  · exact List.nodup_nil

theorem nodup_cxInlinePairs (obj : Json) : (cxInlinePairs obj).Nodup := by
  rw [cxInlinePairs]
  apply foldl_preserve_gen (P := fun a => List.Nodup a)
  · intro a c ha
    apply foldl_preserve_gen (P := fun a2 => List.Nodup a2)
    · intro a2 child h2
      exact nodup_addPair _ _ h2
    · exact ha
  · exact List.nodup_nil

theorem cxMetaPass_id (obj : Json) (s : SBOM) (h : (cxRootId obj).truthy = false) :
    cxMetaPass obj s = s := by
  simp only [cxMetaPass]
  split
  · rename_i hmc
    split
    · rename_i hrid
      exfalso
      have htr : (cxRootId obj).truthy = true := by
        rw [cxRootId, if_pos hmc]
        exact hrid
      rw [htr] at h
      simp at h
    · rfl
  · rfl

theorem cxSynthPass_id (obj : Json) (s : SBOM) (h : (cxRootId obj).truthy = false) :
    cxSynthPass obj s = s := by
  simp only [cxSynthPass]
  rw [if_neg (fun hg => absurd hg.1 (by simp [h]))]

theorem cxCompsPass_edges (obj : Json) : (cxCompsPass obj).edges = [] := by
  apply foldl_preserve (P := fun s => s.edges = [])
  · intro s c h
    dsimp only
    split
    · exact h
    · exact h
  · rfl

theorem cxCompsPass_compKey (obj : Json) (c : Json) (hc : c ∈ (obj.get "components").items)
    (htr : (cxCompId c).truthy = true) :
    dictHasKey (cxCompsPass obj).nodes (cxCompId c) = true := by
  apply foldl_reach (P := fun s => dictHasKey s.nodes (cxCompId c) = true) (x := c)
    ?mono ?hx _ _ hc
  case mono =>
    intro s y h2
    dsimp only
    split
    · exact dictHasKey_dictSet_of _ _ _ _ h2
    · exact h2
  case hx =>
    intro s
    dsimp only
    rw [if_pos htr]
    exact dictHasKey_dictSet_self _ _ _

theorem fromCyclonedx_compKey (obj : Json) (c : Json) (hc : c ∈ (obj.get "components").items)
    (htr : (cxCompId c).truthy = true) :
    dictHasKey (fromCyclonedx obj).nodes (cxCompId c) = true := by
  rw [fromCyclonedx, cxSynthPass_nodes, cxBeforeSynth, cxRootsPass_nodes, cxAfterDeps]
  apply cxFallbackPass_nodesKey
  apply cxDepsPass_nodesKey
  apply cxMetaPass_nodesKey
  exact cxCompsPass_compKey obj c hc htr

theorem c8_nodes_count (obj : Json)
    (hids : ∀ c ∈ (obj.get "components").items, (cxCompId c).truthy = true)
    (hnd : ((obj.get "components").items.map cxCompId).Nodup) :
    (obj.get "components").items.length ≤ (fromCyclonedx obj).nodes.length := by
  classical
  have hsub : ((obj.get "components").items.map cxCompId) ⊆
      (fromCyclonedx obj).nodes.map (fun p => p.1) := by
    intro i hi
    rcases List.mem_map.mp hi with ⟨c, hc, rfl⟩
    exact hasKey_mem_keys (fromCyclonedx_compKey obj c hc (hids c hc))
  have h1 : ((obj.get "components").items.map cxCompId).toFinset.card
      = (obj.get "components").items.length := by
    rw [List.toFinset_card_of_nodup hnd, List.length_map]
  have h2 : ((obj.get "components").items.map cxCompId).toFinset
      ⊆ ((fromCyclonedx obj).nodes.map (fun p => p.1)).toFinset := by
    intro x hx
    rw [List.mem_toFinset] at hx ⊢
    exact hsub hx
  have h3 := Finset.card_le_card h2
  have h4 : (((fromCyclonedx obj).nodes.map (fun p => p.1)).toFinset).card
      ≤ ((fromCyclonedx obj).nodes.map (fun p => p.1)).length := List.toFinset_card_le _
  have h5 : ((fromCyclonedx obj).nodes.map (fun p => p.1)).length
      = (fromCyclonedx obj).nodes.length := List.length_map _ _
  omega

theorem c8_pairs_perm (obj : Json) (hnometa : (cxRootId obj).truthy = false) :
    (edgePairs (fromCyclonedx obj).edges).Perm (cxListedEdges obj) := by
  have hmeta := cxMetaPass_id obj (cxCompsPass obj) hnometa
  have hEdges : (fromCyclonedx obj).edges
      = (cxFallbackPass obj (cxAfterDeps obj)).edges := by
    rw [fromCyclonedx, cxSynthPass_id obj _ hnometa, cxBeforeSynth, cxRootsPass_edges]
  have hAD : cxAfterDeps obj = cxDepsPass obj (cxCompsPass obj) := by
    rw [cxAfterDeps, hmeta]
  have hdepsInv : ∀ q, q ∈ edgePairs (cxAfterDeps obj).edges ↔ q ∈ cxTopPairs obj := by
    intro q
    rw [hAD, cxDepsPass, cxTopPairs]
    exact pairs_cxDepsPass _ _ []
      (fun q2 => by rw [cxCompsPass_edges]; simp [edgePairs]) q
  have hwfAD : edgesWf (cxAfterDeps obj).edges := by
    rw [hAD, cxDepsPass]
    apply foldl_preserve (P := fun s2 => edgesWf s2.edges)
    · intro s2 dep h2
      exact edgesWf_cxDepStep s2 dep h2
    · rw [cxCompsPass_edges]
      exact edgesWf_nil
  by_cases hTop : cxTopPairs obj = []
  · have hADpairs : edgePairs (cxAfterDeps obj).edges = [] := by
      rcases hp : edgePairs (cxAfterDeps obj).edges with _ | ⟨q, qs⟩
      · rfl
      · have hq : q ∈ cxTopPairs obj :=
          (hdepsInv q).mp (by rw [hp]; exact List.mem_cons_self _ _)
        rw [hTop] at hq
        simp at hq
    have hADedges : (cxAfterDeps obj).edges = [] := (pairs_nil_iff _ hwfAD).mp hADpairs
    by_cases hcomps : (obj.get "components").items = []
    · have hfb : cxFallbackPass obj (cxAfterDeps obj) = cxAfterDeps obj := by
        simp only [cxFallbackPass]
        rw [if_neg (fun hcond => hcond.2 hcomps)]
      rw [hEdges, hfb, hADpairs, cxListedEdges, if_pos hTop, cxInlinePairs, hcomps]
      exact List.Perm.refl _
    · have hfbInv : ∀ q, q ∈ edgePairs (cxFallbackPass obj (cxAfterDeps obj)).edges ↔
          q ∈ cxInlinePairs obj := by
        intro q
        simp only [cxFallbackPass]
        rw [if_pos ⟨hADedges, hcomps⟩, cxInlinePairs]
        exact pairs_cxFallbackSteps _ _ []
          (fun q2 => by rw [hADedges]; simp [edgePairs]) q
      have hwfFb : edgesWf (cxFallbackPass obj (cxAfterDeps obj)).edges := by
        simp only [cxFallbackPass]
        rw [if_pos ⟨hADedges, hcomps⟩]
        apply foldl_preserve (P := fun s2 => edgesWf s2.edges)
        · intro s2 c h2
          exact edgesWf_cxFallbackStep s2 c h2
        · exact hwfAD
      rw [hEdges]
      rw [List.perm_ext_iff_of_nodup (edgePairs_nodup _ hwfFb)
        (by rw [cxListedEdges, if_pos hTop]; exact nodup_cxInlinePairs obj)]
      intro a
      rw [hfbInv a, cxListedEdges, if_pos hTop]
  · have hADne : (cxAfterDeps obj).edges ≠ [] := by
      intro he
      rcases hl : cxTopPairs obj with _ | ⟨q, qs⟩
      · exact hTop hl
      · have hq : q ∈ edgePairs (cxAfterDeps obj).edges :=
          (hdepsInv q).mpr (by rw [hl]; exact List.mem_cons_self _ _)
        rw [he] at hq
        simp [edgePairs] at hq
    have hfb : cxFallbackPass obj (cxAfterDeps obj) = cxAfterDeps obj := by
      simp only [cxFallbackPass]
      rw [if_neg (fun hcond => hADne hcond.1)]
    rw [hEdges, hfb]
    rw [List.perm_ext_iff_of_nodup (edgePairs_nodup _ hwfAD)
      (by rw [cxListedEdges, if_neg hTop]; exact nodup_cxTopPairs obj)]
    intro a
    rw [hdepsInv a, cxListedEdges, if_neg hTop]

/-- Counterexample to C8 as stated: Scenario B lists exactly one
dependency edge (a → b) among its two components, yet the produced graph
has two edges — the synthesized edge root → a from the declared metadata
root is added on top — and a third node that no dependency entry
references. -/
theorem c8_counterexample :
    (docB.get "components").items.length = 2
    ∧ (cxListedEdges docB).length = 1
    ∧ (edgePairs (fromCyclonedx docB).edges).length = 2
    ∧ (fromCyclonedx docB).nodes.length = 3 := by
  refine ⟨by decide, by decide, by decide, by decide⟩

/-- C8 amended: for CycloneDX input whose components all carry distinct
derivable ids and whose `metadata.component` yields no derivable root (so
no edge synthesis and no extra metadata node occurs), the graph has at
least as many nodes as components, and its edge set is exactly — as a
permutation of duplicate-free lists — the distinct dependency pairs the
document lists (the top-level section when it yields any, else the inline
per-component lists). -/
theorem c8_amended (obj : Json)
    (hids : ∀ c ∈ (obj.get "components").items, (cxCompId c).truthy = true)
    (hnd : ((obj.get "components").items.map cxCompId).Nodup)
    (hnometa : (cxRootId obj).truthy = false) :
    (obj.get "components").items.length ≤ (fromCyclonedx obj).nodes.length
    ∧ (edgePairs (fromCyclonedx obj).edges).Perm (cxListedEdges obj) :=
  ⟨c8_nodes_count obj hids hnd, c8_pairs_perm obj hnometa⟩

/-- Witness for C8 amended at Scenario A: two components, one listed edge,
and the produced graph matches them exactly. -/
theorem c8_witness :
    (docA.get "components").items.length ≤ (fromCyclonedx docA).nodes.length
    ∧ (edgePairs (fromCyclonedx docA).edges).Perm (cxListedEdges docA) :=
  c8_amended docA (by decide) (by decide) (by decide)
